import Mathlib

/-!
Verification development for the Polymarket ingestion pipeline.

This file gives a shallow embedding of the ingestion core of the repository
(`database/load_data_to_db.py`, `database/supabase_utils.py`,
`database/init_data.py`, `database/init_data_async.py`) and proves / refutes
the frozen claims about it.

Modelling conventions:
* Python values flowing through the untyped dict-based records are embedded
  as the inductive type `PyVal` (`None`, booleans, integers, strings, lists,
  dicts).  Numeric trade fields are modelled as integers; only their
  truthiness matters to the properties below.
* Python dicts are association lists (`PyDict`); `d.get(k)` is `dget`,
  `d.get(k, v)` is `dgetD`.
* The storage backend is abstracted by a `Backend` record saying which bulk
  requests and which single-record requests succeed.  On success the backend
  is modelled as reporting the submitted rows back (`result.data = chunk`),
  matching how `bulk_insert` counts `len(result.data)`.
* Loops whose termination depends on the remote oracle are written with an
  explicit fuel parameter so that every definition is executable; theorems
  about termination exhibit a sufficient fuel and the `halted` flag.
-/

/-- Embedded Python value universe for the untyped records of the pipeline. -/
inductive PyVal where
  | none
  | bool (b : Bool)
  | int (n : Int)
  | str (s : String)
  | list (xs : List PyVal)
  | dict (xs : List (String × PyVal))

/-- `v is None` — structural test, used by the None-stripping filters. -/
def PyVal.isNone : PyVal → Bool
  | .none => true
  | _ => false

mutual

/-- Structural equality of embedded Python values. -/
def PyVal.beq : PyVal → PyVal → Bool
  | .none, .none => true
  | .bool a, .bool b => a == b
  | .int a, .int b => a == b
  | .str a, .str b => a == b
  | .list as, .list bs => PyVal.beqList as bs
  | .dict as, .dict bs => PyVal.beqDict as bs
  | _, _ => false

/-- Pointwise equality of lists of embedded values. -/
def PyVal.beqList : List PyVal → List PyVal → Bool
  | [], [] => true
  | a :: as, b :: bs => PyVal.beq a b && PyVal.beqList as bs
  | _, _ => false

/-- Pointwise equality of string-keyed association lists of embedded values. -/
def PyVal.beqDict : List (String × PyVal) → List (String × PyVal) → Bool
  | [], [] => true
  | (k, a) :: as, (l, b) :: bs => k == l && PyVal.beq a b && PyVal.beqDict as bs
  | _, _ => false

end

instance : BEq PyVal := ⟨PyVal.beq⟩

/-- A Python dict as an association list (keys are strings in this codebase). -/
abbrev PyDict := List (String × PyVal)

/-- Python truthiness of an embedded value (`if v:`). -/
def truthy : PyVal → Bool
  | .none => false
  | .bool b => b
  | .int n => n != 0
  | .str s => s != ""
  | .list xs => !xs.isEmpty
  | .dict xs => !xs.isEmpty

/-- Python `len(v)`: defined for sized values, raises `TypeError` otherwise
(modelled as `Option.none`). -/
def pyLen : PyVal → Option Int
  | .str s => some s.length
  | .list xs => some xs.length
  | .dict xs => some xs.length
  | _ => Option.none

/-- `d.get(k, default)`. -/
def dgetD (d : PyDict) (k : String) (v : PyVal) : PyVal :=
  (d.lookup k).getD v

/-- `d.get(k)` (missing key yields `None`). -/
def dget (d : PyDict) (k : String) : PyVal :=
  dgetD d k PyVal.none

/-- Python `a or b` (first truthy operand wins). -/
def pyOr (a b : PyVal) : PyVal :=
  if truthy a then a else b

/-- `{k: v for k, v in d.items() if v is not None}` — the None-stripping
applied to every transformed record before it is written. -/
def stripNone (d : PyDict) : PyDict :=
  d.filter (fun p => !p.2.isNone)

/-- `transform_user_data` from `database/load_data_to_db.py`: extract the user
record embedded in a trade payload. -/
def transform_user_data (trade : PyDict) : PyDict :=
  [ ("proxy_wallet", dget trade "proxyWallet"),
    ("name", dget trade "name"),
    ("pseudonym", dget trade "pseudonym"),
    ("bio", dget trade "bio"),
    ("profile_image", dget trade "profileImage"),
    ("profile_image_optimized", dget trade "profileImageOptimized") ]

/-- Model of `pd.to_datetime(timestamp, unit="s")` composed with
`.isoformat() if datetime_val else None` as used by `transform_trade_data`:
a falsy timestamp yields `None`; a truthy integer epoch yields an ISO string
(the exact formatting of the external library is abstracted by `toString`);
any other truthy value makes the library raise (`Option.none`). -/
def pdDatetimeIso (ts : PyVal) : Option PyVal :=
  if truthy ts then
    match ts with
    | .int n => some (.str ("epoch:" ++ toString n))
    | _ => Option.none
  else some PyVal.none

/-- `transform_trade_data` from `database/load_data_to_db.py`.  The only
operation in its body that can raise is the `pd.to_datetime` conversion of a
truthy non-numeric `timestamp`; a raise is modelled as `Option.none`. -/
def transform_trade_data (trade : PyDict) : Option PyDict :=
  let timestamp := dget trade "timestamp"
  match pdDatetimeIso timestamp with
  | Option.none => Option.none
  | some dtv =>
    some
      [ ("transaction_hash", dget trade "transactionHash"),
        ("proxy_wallet", dget trade "proxyWallet"),
        ("condition_id", dget trade "conditionId"),
        ("slug", dget trade "slug"),
        ("side", dget trade "side"),
        ("asset", dget trade "asset"),
        ("outcome", dget trade "outcome"),
        ("outcome_index", dget trade "outcomeIndex"),
        ("size", dget trade "size"),
        ("price", dget trade "price"),
        ("timestamp", timestamp),
        ("datetime", dtv),
        ("title", dget trade "title"),
        ("icon", dget trade "icon"),
        ("event_slug", dget trade "eventSlug") ]

/-- `transform_event_data` from `database/load_data_to_db.py`.  `len(markets)`
raises unless the `markets` value is sized (a raise is `Option.none`). -/
def transform_event_data (event : PyDict) : Option PyDict :=
  let markets := dgetD event "markets" (.list [])
  match pyLen markets with
  | Option.none => Option.none
  | some n =>
    let event_type : PyVal :=
      if n == 1 then .str "SMP" else if n > 1 then .str "GMP" else .none
    some
      [ ("id", dget event "id"),
        ("ticker", dget event "ticker"),
        ("slug", dget event "slug"),
        ("title", dget event "title"),
        ("description", dget event "description"),
        ("event_type", event_type),
        ("market_count", .int n),
        ("active", dgetD event "active" (.bool true)),
        ("closed", dgetD event "closed" (.bool false)),
        ("archived", dgetD event "archived" (.bool false)),
        ("new", dgetD event "new" (.bool false)),
        ("featured", dgetD event "featured" (.bool false)),
        ("restricted", dgetD event "restricted" (.bool false)),
        ("start_date", dget event "startDate"),
        ("creation_date", dget event "creationDate"),
        ("end_date", dget event "endDate"),
        ("created_at", dget event "createdAt"),
        ("updated_at", dget event "updatedAt"),
        ("liquidity", dget event "liquidity"),
        ("volume", dget event "volume"),
        ("volume_24hr", dget event "volume24hr"),
        ("volume_1wk", dget event "volume1wk"),
        ("volume_1mo", dget event "volume1mo"),
        ("volume_1yr", dget event "volume1yr"),
        ("open_interest", dget event "openInterest"),
        ("liquidity_clob", dget event "liquidityClob"),
        ("image", dget event "image"),
        ("icon", dget event "icon"),
        ("enable_order_book", dgetD event "enableOrderBook" (.bool true)),
        ("competitive", dget event "competitive"),
        ("comment_count", dgetD event "commentCount" (.int 0)),
        ("cyom", dgetD event "cyom" (.bool false)),
        ("show_all_outcomes", dgetD event "showAllOutcomes" (.bool true)),
        ("show_market_images", dgetD event "showMarketImages" (.bool true)),
        ("enable_neg_risk", dgetD event "enableNegRisk" (.bool false)),
        ("automatically_active", dgetD event "automaticallyActive" (.bool true)),
        ("neg_risk_augmented", dgetD event "negRiskAugmented" (.bool false)),
        ("pending_deployment", dgetD event "pendingDeployment" (.bool false)),
        ("deploying", dgetD event "deploying" (.bool false)),
        ("tags", dget event "tags"),
        ("resolution_source", dget event "resolutionSource") ]

/-- `transform_market_data` from `database/load_data_to_db.py`: a pure field
rename table with `or`-style synonym fallbacks; no operation in its body can
raise, so it is total. -/
def transform_market_data (market : PyDict) (event_id : PyVal) : PyDict :=
  [ ("id", dget market "id"),
    ("event_id", event_id),
    ("condition_id", pyOr (dget market "conditionId") (dget market "condition_id")),
    ("question", dget market "question"),
    ("slug", dget market "slug"),
    ("description", dget market "description"),
    ("outcomes", dget market "outcomes"),
    ("outcome_prices", dget market "outcomePrices"),
    ("clob_token_ids", dget market "clobTokenIds"),
    ("active", dgetD market "active" (.bool true)),
    ("closed", dgetD market "closed" (.bool false)),
    ("archived", dgetD market "archived" (.bool false)),
    ("funded", dgetD market "funded" (.bool false)),
    ("ready", dgetD market "ready" (.bool false)),
    ("restricted", dgetD market "restricted" (.bool false)),
    ("start_date_iso", pyOr (dget market "startDateIso") (dget market "startDate")),
    ("end_date_iso", pyOr (dget market "endDateIso") (dget market "endDate")),
    ("created_at", dget market "createdAt"),
    ("updated_at", dget market "updatedAt"),
    ("accepting_orders_timestamp", dget market "acceptingOrdersTimestamp"),
    ("enable_order_book", dgetD market "enableOrderBook" (.bool true)),
    ("order_price_min_tick_size", dget market "orderPriceMinTickSize"),
    ("order_min_size", dget market "orderMinSize"),
    ("accepting_orders", dgetD market "acceptingOrders" (.bool true)),
    ("neg_risk", dgetD market "negRisk" (.bool false)),
    ("volume_num", pyOr (dget market "volumeNum") (dget market "volume")),
    ("liquidity_num", pyOr (dget market "liquidityNum") (dget market "liquidity")),
    ("volume_24hr", dget market "volume24hr"),
    ("volume_1wk", dget market "volume1wk"),
    ("volume_1mo", dget market "volume1mo"),
    ("volume_1yr", dget market "volume1yr"),
    ("volume_clob", dget market "volumeClob"),
    ("volume_24hr_clob", dget market "volume24hrClob"),
    ("volume_1wk_clob", dget market "volume1wkClob"),
    ("volume_1mo_clob", dget market "volume1moClob"),
    ("volume_1yr_clob", dget market "volume1yrClob"),
    ("liquidity_clob", dget market "liquidityClob"),
    ("spread", dget market "spread"),
    ("one_day_price_change", dget market "oneDayPriceChange"),
    ("one_week_price_change", dget market "oneWeekPriceChange"),
    ("one_month_price_change", dget market "oneMonthPriceChange"),
    ("last_trade_price", dget market "lastTradePrice"),
    ("best_bid", dget market "bestBid"),
    ("best_ask", dget market "bestAsk"),
    ("resolution_source", dget market "resolutionSource"),
    ("resolved_by", dget market "resolvedBy"),
    ("uma_bond", dget market "umaBond"),
    ("uma_reward", dget market "umaReward"),
    ("uma_resolution_statuses", dget market "umaResolutionStatuses"),
    ("image", dget market "image"),
    ("icon", dget market "icon"),
    ("events", dget market "events"),
    ("group_item_title", dget market "groupItemTitle"),
    ("group_item_threshold", dget market "groupItemThreshold"),
    ("series_color", dget market "seriesColor"),
    ("new", dgetD market "new" (.bool false)),
    ("featured", dgetD market "featured" (.bool false)),
    ("competitive", dgetD market "competitive" (.bool false)),
    ("cyom", dgetD market "cyom" (.bool false)),
    ("rfq_enabled", dgetD market "rfqEnabled" (.bool false)),
    ("holding_rewards_enabled", dgetD market "holdingRewardsEnabled" (.bool false)),
    ("fees_enabled", dgetD market "feesEnabled" (.bool false)),
    ("show_gmp_series", dgetD market "showGmpSeries" (.bool false)),
    ("show_gmp_outcome", dgetD market "showGmpOutcome" (.bool false)),
    ("submitted_by", dget market "submitted_by"),
    ("approved", dgetD market "approved" (.bool false)),
    ("pager_duty_notification_enabled",
      dgetD market "pagerDutyNotificationEnabled" (.bool false)),
    ("pending_deployment", dgetD market "pendingDeployment" (.bool false)),
    ("deploying", dgetD market "deploying" (.bool false)),
    ("market_maker_address", dget market "marketMakerAddress"),
    ("rewards_min_size", dget market "rewardsMinSize"),
    ("rewards_max_spread", dget market "rewardsMaxSpread") ]

/-- The mandatory-field check of `insert_trades` / `insert_trades_batch`:
`all([transformed.get("proxy_wallet"), ..., transformed.get("timestamp")])`,
i.e. Python truthiness of the five mandatory fields of a (stripped)
transformed trade record. -/
def mandOk (r : PyDict) : Bool :=
  truthy (dget r "proxy_wallet") && truthy (dget r "side") &&
  truthy (dget r "size") && truthy (dget r "price") &&
  truthy (dget r "timestamp")

example : truthy (PyVal.int 0) = false := by decide

example :
    transform_event_data [("markets", PyVal.none)] = Option.none := rfl

example :
    (transform_trade_data [("timestamp", PyVal.int 0)]).isSome = true := rfl

/-! ## Bulk Writer (`database/supabase_utils.py`) -/

/-- Abstract storage backend for the Bulk Writer: which bulk requests (a list
of records submitted in one call) succeed and which single-record requests
succeed.  On success the backend reports the submitted rows back, matching
`len(result.data)` in the source. -/
structure Backend (α : Type) where
  okBulk : List α → Bool
  okOne : α → Bool

/-- A request issued against the storage backend: either one bulk call
carrying a list of records, or one single-record call. -/
inductive Req (α : Type) where
  | bulk (rs : List α)
  | single (r : α)
deriving DecidableEq

/-- `records[i:i+chunkSize]` slicing loop, fuelled by the list length so the
definition is structural (Python raises on a zero step; all theorems assume
`1 ≤ n`). -/
def chunksOfAux (n : Nat) : Nat → List α → List (List α)
  | 0, _ => []
  | _, [] => []
  | fuel + 1, x :: xs => (x :: xs).take n :: chunksOfAux n fuel ((x :: xs).drop n)

/-- Split a list into consecutive chunks of size `n` (the last may be short). -/
def chunksOf (n : Nat) (l : List α) : List (List α) :=
  chunksOfAux n l.length l

theorem chunksOfAux_fuel (n : Nat) :
    ∀ (f₁ f₂ : Nat) (l : List α), 1 ≤ n → l.length ≤ f₁ → l.length ≤ f₂ →
      chunksOfAux n f₁ l = chunksOfAux n f₂ l := by
  intro f₁
  induction f₁ with
  | zero =>
    intro f₂ l hn h₁ h₂
    have : l = [] := List.eq_nil_of_length_eq_zero (Nat.le_zero.mp h₁)
    subst this
    cases f₂ <;> rfl
  | succ k ih =>
    intro f₂ l hn h₁ h₂
    cases l with
    | nil => cases f₂ <;> rfl
    | cons x xs =>
      cases f₂ with
      | zero => simp at h₂
      | succ m =>
        simp only [chunksOfAux]
        congr 1
        apply ih
        · exact hn
        · have : ((x :: xs).drop n).length = (x :: xs).length - n := by
            simp [List.length_drop]
          simp only [this, List.length_cons] at *
          omega
        · have : ((x :: xs).drop n).length = (x :: xs).length - n := by
            simp [List.length_drop]
          simp only [this, List.length_cons] at *
          omega

theorem chunksOf_nil (n : Nat) : chunksOf n ([] : List α) = [] := rfl

theorem chunksOf_cons (n : Nat) (l : List α) (hn : 1 ≤ n) (hl : l ≠ []) :
    chunksOf n l = l.take n :: chunksOf n (l.drop n) := by
  cases l with
  | nil => exact absurd rfl hl
  | cons x xs =>
    show chunksOfAux n (xs.length + 1) (x :: xs) = _
    simp only [chunksOfAux]
    congr 1
    apply chunksOfAux_fuel n _ _ _ hn
    · simp [List.length_drop]; omega
    · exact Nat.le_refl _

theorem chunksOfAux_flatten (n : Nat) (hn : 1 ≤ n) :
    ∀ (fuel : Nat) (l : List α), l.length ≤ fuel →
      (chunksOfAux n fuel l).flatten = l := by
  intro fuel
  induction fuel with
  | zero =>
    intro l hl
    have : l = [] := List.eq_nil_of_length_eq_zero (Nat.le_zero.mp hl)
    subst this; rfl
  | succ k ih =>
    intro l hl
    cases l with
    | nil => rfl
    | cons x xs =>
      simp only [chunksOfAux, List.flatten_cons]
      rw [ih _ (by simp only [List.length_drop, List.length_cons] at *; omega),
        List.take_append_drop]

theorem chunksOf_flatten (n : Nat) (hn : 1 ≤ n) (l : List α) :
    (chunksOf n l).flatten = l :=
  chunksOfAux_flatten n hn l.length l (Nat.le_refl _)

theorem mem_of_mem_chunksOf {n : Nat} (hn : 1 ≤ n) {l : List α}
    {c : List α} (hc : c ∈ chunksOf n l) {r : α} (hr : r ∈ c) : r ∈ l := by
  have : r ∈ (chunksOf n l).flatten := List.mem_flatten.mpr ⟨c, hc, hr⟩
  rwa [chunksOf_flatten n hn] at this

/-- One-by-one fallback loop: write each record individually; a record whose
request fails is skipped (whether the failure is a duplicate or not does not
change the returned count — both branches of the source skip the record).
Returns the count of successful writes and the issued requests. -/
def oneByOne (be : Backend α) : List α → Nat × List (Req α)
  | [] => (0, [])
  | r :: rs =>
    let rest := oneByOne be rs
    ((if be.okOne r then 1 else 0) + rest.1, Req.single r :: rest.2)

/-- The body of the per-chunk loop of `bulk_insert`: try the whole chunk as
one request; on failure split into sub-chunks of 100 when the chunk holds
more than 100 records, retrying each sub-chunk as a bulk request and
degrading a failed sub-chunk to one-by-one writes; small chunks degrade
directly to one-by-one.  Returns (records counted as written, issued
requests). -/
def insertChunk (be : Backend α) (chunk : List α) : Nat × List (Req α) :=
  if be.okBulk chunk then
    (chunk.length, [Req.bulk chunk])
  else if 100 < chunk.length then
    let results := (chunksOf 100 chunk).map (fun sc =>
      if be.okBulk sc then (sc.length, [Req.bulk sc])
      else
        let o := oneByOne be sc
        (o.1, Req.bulk sc :: o.2))
    ((results.map Prod.fst).sum, Req.bulk chunk :: (results.map Prod.snd).flatten)
  else
    let o := oneByOne be chunk
    (o.1, Req.bulk chunk :: o.2)

/-- The body of the per-chunk loop of `bulk_upsert`: try the whole chunk as
one request; on failure fall back directly to one-by-one upserts. -/
def upsertChunk (be : Backend α) (chunk : List α) : Nat × List (Req α) :=
  if be.okBulk chunk then
    (chunk.length, [Req.bulk chunk])
  else
    let o := oneByOne be chunk
    (o.1, Req.bulk chunk :: o.2)

/-- `bulk_insert` from `database/supabase_utils.py`, instrumented with the
list of issued requests.  (`ignore_duplicates` only affects logging and a
local counter in the source, never the returned total, so it is omitted.) -/
def bulkInsertTrace (be : Backend α) (chunkSize : Nat) (records : List α) :
    Nat × List (Req α) :=
  if records.isEmpty then (0, [])
  else
    let rs := (chunksOf chunkSize records).map (insertChunk be)
    ((rs.map Prod.fst).sum, (rs.map Prod.snd).flatten)

/-- `bulk_upsert` from `database/supabase_utils.py`, instrumented with the
list of issued requests. -/
def bulkUpsertTrace (be : Backend α) (chunkSize : Nat) (records : List α) :
    Nat × List (Req α) :=
  if records.isEmpty then (0, [])
  else
    let rs := (chunksOf chunkSize records).map (upsertChunk be)
    ((rs.map Prod.fst).sum, (rs.map Prod.snd).flatten)

/-- The count returned by `bulk_insert`. -/
def bulk_insert (be : Backend α) (chunkSize : Nat) (records : List α) : Nat :=
  (bulkInsertTrace be chunkSize records).1

/-- The count returned by `bulk_upsert`. -/
def bulk_upsert (be : Backend α) (chunkSize : Nat) (records : List α) : Nat :=
  (bulkUpsertTrace be chunkSize records).1

theorem oneByOne_fst (be : Backend α) (rs : List α) :
    (oneByOne be rs).1 = rs.countP be.okOne := by
  induction rs with
  | nil => rfl
  | cons r rs ih =>
    simp only [oneByOne, ih, List.countP_cons]
    by_cases h : be.okOne r <;> simp [h] <;> omega

theorem oneByOne_snd (be : Backend α) (rs : List α) :
    (oneByOne be rs).2 = rs.map Req.single := by
  induction rs with
  | nil => rfl
  | cons r rs ih => simp [oneByOne, ih]

theorem countP_not_add_countP (p : α → Bool) (l : List α) :
    l.countP (fun a => !p a) + l.countP p = l.length := by
  induction l with
  | nil => rfl
  | cons a l ih =>
    simp only [List.countP_cons, List.length_cons]
    by_cases h : p a <;> simp [h] <;> omega

/-- A storage backend that rejects exactly the requests containing a
malformed record (one satisfying `bad`) and accepts every other request —
the failure model of the chunk-degradation claim. -/
def badBackend (bad : α → Bool) : Backend α :=
  ⟨fun rs => !rs.any bad, fun r => !bad r⟩

theorem insertChunk_badBackend_count (bad : α → Bool) (c : List α) :
    (insertChunk (badBackend bad) c).1 = c.countP (fun r => !bad r) := by
  unfold insertChunk
  by_cases hok : (badBackend bad).okBulk c
  · rw [if_pos hok]
    have hall : ∀ r ∈ c, bad r = false := by
      intro r hr
      have := hok
      simp only [badBackend, Bool.not_eq_true', List.any_eq_false] at this
      exact Bool.not_eq_true _ |>.mp (this r hr)
    exact (List.countP_eq_length.mpr (by intro r hr; simp [hall r hr])).symm
  · rw [if_neg hok]
    by_cases hbig : 100 < c.length
    · rw [if_pos hbig]
      simp only [List.map_map]
      have hmap :
          (chunksOf 100 c).map
              (Prod.fst ∘ fun sc =>
                if (badBackend bad).okBulk sc then (sc.length, [Req.bulk sc])
                else ((oneByOne (badBackend bad) sc).1,
                  Req.bulk sc :: (oneByOne (badBackend bad) sc).2))
            = (chunksOf 100 c).map (List.countP (fun r => !bad r)) := by
        apply List.map_congr_left
        intro sc _
        by_cases hsc : (badBackend bad).okBulk sc
        · have hall : ∀ r ∈ sc, bad r = false := by
            intro r hr
            have := hsc
            simp only [badBackend, Bool.not_eq_true', List.any_eq_false] at this
            exact Bool.not_eq_true _ |>.mp (this r hr)
          simp only [Function.comp_apply, if_pos hsc]
          exact (List.countP_eq_length.mpr (by intro r hr; simp [hall r hr])).symm
        · simp only [Function.comp_apply, if_neg hsc]
          exact oneByOne_fst (badBackend bad) sc
      rw [hmap, ← List.countP_flatten, chunksOf_flatten 100 (by omega)]
    · rw [if_neg hbig]
      exact oneByOne_fst (badBackend bad) c

/-- C1: with a single malformed record (the backend rejects any request
containing it, accepts all others), insert-mode bulk writing drops exactly
the bad record and counts every other record as written, returning N − 1. -/
theorem bulk_insert_isolates_single_bad (bad : α → Bool) (chunkSize : Nat)
    (records : List α) (hcs : 1 ≤ chunkSize)
    (hone : records.countP bad = 1) :
    bulk_insert (badBackend bad) chunkSize records = records.length - 1 := by
  have hne : records ≠ [] := by
    intro h
    subst h
    simp at hone
  unfold bulk_insert bulkInsertTrace
  rw [if_neg (by simpa [List.isEmpty_iff] using hne)]
  simp only [List.map_map]
  have hmap : (chunksOf chunkSize records).map (Prod.fst ∘ insertChunk (badBackend bad))
      = (chunksOf chunkSize records).map (List.countP (fun r => !bad r)) :=
    List.map_congr_left (fun c _ => insertChunk_badBackend_count bad c)
  rw [hmap, ← List.countP_flatten, chunksOf_flatten chunkSize hcs]
  have := countP_not_add_countP bad records
  omega

/-- Witness for C1 at a concrete batch: three records of which exactly the
record `7` is malformed; the writer reports 2 = 3 − 1. -/
theorem bulk_insert_isolates_single_bad_witness :
    1 ≤ 2 ∧ ([1, 7, 2] : List Nat).countP (fun n => n == 7) = 1 ∧
      bulk_insert (badBackend (fun n : Nat => n == 7)) 2 [1, 7, 2] = [1, 7, 2].length - 1 :=
  ⟨by decide, by decide,
    bulk_insert_isolates_single_bad (fun n => n == 7) 2 [1, 7, 2] (by decide) (by decide)⟩

theorem req_mem_bulkInsertTrace (be : Backend α) {cs : Nat} (hcs : 1 ≤ cs)
    {records c : List α} (hc : c ∈ chunksOf cs records) {q : Req α}
    (hq : q ∈ (insertChunk be c).2) : q ∈ (bulkInsertTrace be cs records).2 := by
  have hne : records ≠ [] := by
    intro h
    subst h
    simp [chunksOf_nil] at hc
  unfold bulkInsertTrace
  rw [if_neg (by simpa [List.isEmpty_iff] using hne)]
  simp only [List.map_map]
  exact List.mem_flatten.mpr
    ⟨(insertChunk be c).2, List.mem_map.mpr ⟨c, hc, rfl⟩, hq⟩

/-- C2 (amended): only insert mode has the intermediate tier.  For a failed
chunk of more than 100 records, `bulk_insert` issues a bulk request for every
sub-chunk of 100 and issues single-record requests exactly for the records of
the sub-chunks whose own bulk request also failed, while `bulk_upsert`
degrades a failed chunk directly to one single-record request per record,
with no sub-chunk tier. -/
theorem bulk_ladder_subchunk_amended (be : Backend α) (cs : Nat)
    (records c : List α) (hcs : 1 ≤ cs) (hc : c ∈ chunksOf cs records)
    (hfail : be.okBulk c = false) (hbig : 100 < c.length) :
    (∀ sc ∈ chunksOf 100 c, Req.bulk sc ∈ (bulkInsertTrace be cs records).2)
    ∧ (∀ r : α, Req.single r ∈ (insertChunk be c).2 ↔
        ∃ sc, sc ∈ chunksOf 100 c ∧ be.okBulk sc = false ∧ r ∈ sc)
    ∧ (upsertChunk be c).2 = Req.bulk c :: c.map Req.single := by
  have htrace : (insertChunk be c).2 =
      Req.bulk c :: ((chunksOf 100 c).map (fun sc =>
        if be.okBulk sc then [Req.bulk sc]
        else Req.bulk sc :: sc.map Req.single)).flatten := by
    unfold insertChunk
    rw [if_neg (by simp [hfail]), if_pos hbig]
    simp only [List.map_map]
    congr 1
    congr 1
    apply List.map_congr_left
    intro sc _
    by_cases hsc : be.okBulk sc
    · simp [hsc]
    · simp [hsc, oneByOne_snd]
  refine ⟨?_, ?_, ?_⟩
  · intro sc hsc
    apply req_mem_bulkInsertTrace be hcs hc
    rw [htrace]
    by_cases hok : be.okBulk sc
    · exact List.mem_cons_of_mem _ (List.mem_flatten.mpr
        ⟨[Req.bulk sc], List.mem_map.mpr ⟨sc, hsc, by simp [hok]⟩, by simp⟩)
    · exact List.mem_cons_of_mem _ (List.mem_flatten.mpr
        ⟨Req.bulk sc :: sc.map Req.single,
          List.mem_map.mpr ⟨sc, hsc, by simp [hok]⟩, by simp⟩)
  · intro r
    rw [htrace]
    constructor
    · intro hr
      rcases List.mem_cons.mp hr with h | h
      · exact absurd h (by simp)
      · rcases List.mem_flatten.mp h with ⟨l, hl, hrl⟩
        rcases List.mem_map.mp hl with ⟨sc, hsc, rfl⟩
        by_cases hok : be.okBulk sc
        · rw [if_pos hok] at hrl
          simp at hrl
        · rw [if_neg hok] at hrl
          rcases List.mem_cons.mp hrl with h2 | h2
          · exact absurd h2 (by simp)
          · rcases List.mem_map.mp h2 with ⟨r2, hr2, hre⟩
            exact ⟨sc, hsc, Bool.not_eq_true _ |>.mp hok, by
              cases hre
              exact hr2⟩
    · intro ⟨sc, hsc, hok, hrsc⟩
      apply List.mem_cons_of_mem
      apply List.mem_flatten.mpr
      refine ⟨Req.bulk sc :: sc.map Req.single, List.mem_map.mpr ⟨sc, hsc, by simp [hok]⟩, ?_⟩
      exact List.mem_cons_of_mem _ (List.mem_map.mpr ⟨r, hrsc, rfl⟩)
  · unfold upsertChunk
    rw [if_neg (by simp [hfail])]
    simp [oneByOne_snd]

/-- A backend that rejects every bulk request of more than 100 records and
accepts everything else — it makes a whole 101-record chunk fail while any
sub-chunk of 100 would succeed. -/
def rejectOver100 : Backend Nat :=
  ⟨fun rs => decide (rs.length ≤ 100), fun _ => true⟩

/-- Counterexample to C2 as stated: in upsert mode, a failed chunk of 101
records (chunk size 1000) is degraded directly to one-by-one writes — the
issued requests contain single-record requests although every sub-chunk bulk
request of 100 would have succeeded, and contain no bulk request of 100
records at all. -/
theorem bulk_upsert_no_subchunk_cex :
    ((bulkUpsertTrace rejectOver100 1000 (List.range 101)).2.any (fun q =>
        match q with
        | Req.single _ => true
        | Req.bulk _ => false)) = true
    ∧ ((bulkUpsertTrace rejectOver100 1000 (List.range 101)).2.any (fun q =>
        match q with
        | Req.bulk rs => rs.length == 100
        | Req.single _ => false)) = false := by
  constructor
  · rfl
  · rfl

/-- Witness for the amended C2 at the same concrete input. -/
theorem bulk_ladder_subchunk_amended_witness :
    1 ≤ 1000 ∧ List.range 101 ∈ chunksOf 1000 (List.range 101) ∧
      rejectOver100.okBulk (List.range 101) = false ∧ 100 < (List.range 101).length ∧
      ((∀ sc ∈ chunksOf 100 (List.range 101),
          Req.bulk sc ∈ (bulkInsertTrace rejectOver100 1000 (List.range 101)).2)
        ∧ (∀ r : Nat, Req.single r ∈ (insertChunk rejectOver100 (List.range 101)).2 ↔
            ∃ sc, sc ∈ chunksOf 100 (List.range 101) ∧
              rejectOver100.okBulk sc = false ∧ r ∈ sc)
        ∧ (upsertChunk rejectOver100 (List.range 101)).2 =
            Req.bulk (List.range 101) :: (List.range 101).map Req.single) :=
  ⟨by decide, by decide, by decide, by decide,
    bulk_ladder_subchunk_amended rejectOver100 1000 (List.range 101) (List.range 101)
      (by decide) (by decide) (by decide) (by decide)⟩

/-! ## Remote Data Source Client -/

/-- Outcome of one HTTP GET: a response with a status code and decoded JSON
list body, a timeout, or another transport-level exception. -/
inductive HttpResult where
  | resp (status : Nat) (body : List PyDict)
  | timeout
  | error

/-- `fetch_trades_async` from `database/init_data_async.py` as a function of
the HTTP outcome: 200 yields the body, 429 sleeps 5 seconds and yields the
empty list, any other status, a timeout or an exception yield the empty
list.  The second component is the back-off slept, in seconds. -/
def fetch_trades_async : HttpResult → List PyDict × Nat
  | .resp status body =>
    if status = 200 then (body, 0)
    else if status = 429 then ([], 5)
    else ([], 0)
  | .timeout => ([], 0)
  | .error => ([], 0)

/-- `fetch_events_async` from `database/init_data_async.py` (defined twice
there with identical bodies); same shape as `fetch_trades_async`. -/
def fetch_events_async : HttpResult → List PyDict × Nat
  | .resp status body =>
    if status = 200 then (body, 0)
    else if status = 429 then ([], 5)
    else ([], 0)
  | .timeout => ([], 0)
  | .error => ([], 0)

/-- `get_trades` from `database/load_data_to_db.py`: a bare
`requests.get(...).json()` with no status check and no exception handling —
a timeout or transport error propagates to the caller (`Except.error`), and
the decoded body is returned whatever the status code. -/
def get_trades : HttpResult → Except Unit (List PyDict)
  | .resp _ body => .ok body
  | .timeout => .error ()
  | .error => .error ()

/-- `get_events` from `database/load_data_to_db.py`: identical shape to
`get_trades`. -/
def get_events : HttpResult → Except Unit (List PyDict)
  | .resp _ body => .ok body
  | .timeout => .error ()
  | .error => .error ()

/-- Counterexample to C8 as stated: the synchronous client does not honour
the empty-list contract — on timeout `get_trades` raises instead of
returning a list, and on a non-200 status it returns the decoded body
(here a non-empty one) rather than the empty list. -/
theorem sync_client_contract_cex :
    get_trades HttpResult.timeout = Except.error ()
    ∧ get_trades (HttpResult.resp 500 [[("a", PyVal.int 1)]]) =
        Except.ok [[("a", PyVal.int 1)]]
    ∧ ([[("a", PyVal.int 1)]] : List PyDict) ≠ [] := by
  refine ⟨rfl, rfl, ?_⟩
  intro h
  cases h

/-- C8 (amended): the stated contract (200 → body; 429 → empty after a
5-second back-off; timeout, transport error, any other status → empty,
never raising) holds for the asynchronous client only; the synchronous
client returns the decoded body for every completed response regardless of
status and propagates timeouts and transport errors to its caller. -/
theorem remote_client_contract_amended :
    (∀ body : List PyDict,
      fetch_trades_async (.resp 200 body) = (body, 0)
      ∧ fetch_events_async (.resp 200 body) = (body, 0))
    ∧ (∀ body : List PyDict,
      fetch_trades_async (.resp 429 body) = ([], 5)
      ∧ fetch_events_async (.resp 429 body) = ([], 5))
    ∧ (∀ (s : Nat) (body : List PyDict), s ≠ 200 → s ≠ 429 →
      fetch_trades_async (.resp s body) = ([], 0)
      ∧ fetch_events_async (.resp s body) = ([], 0))
    ∧ fetch_trades_async .timeout = ([], 0)
    ∧ fetch_events_async .timeout = ([], 0)
    ∧ fetch_trades_async .error = ([], 0)
    ∧ fetch_events_async .error = ([], 0)
    ∧ (∀ (s : Nat) (body : List PyDict), get_trades (.resp s body) = .ok body
      ∧ get_events (.resp s body) = .ok body)
    ∧ get_trades .timeout = .error ()
    ∧ get_events .timeout = .error () := by
  refine ⟨fun body => ⟨by simp [fetch_trades_async], by simp [fetch_events_async]⟩,
    fun body => ⟨by simp [fetch_trades_async], by simp [fetch_events_async]⟩,
    ?_, rfl, rfl, rfl, rfl, fun s body => ⟨rfl, rfl⟩, rfl, rfl⟩
  intro s body h200 h429
  constructor
  · show fetch_trades_async (.resp s body) = ([], 0)
    simp [fetch_trades_async, h200, h429]
  · show fetch_events_async (.resp s body) = ([], 0)
    simp [fetch_events_async, h200, h429]

/-- Witness for the amended C8 at status 503. -/
theorem remote_client_contract_amended_witness :
    (503 ≠ 200) ∧ (503 ≠ 429) ∧
      fetch_trades_async (.resp 503 [[("a", PyVal.int 1)]]) = ([], 0) ∧
      get_trades (.resp 503 [[("a", PyVal.int 1)]]) = .ok [[("a", PyVal.int 1)]] :=
  ⟨by decide, by decide,
    (remote_client_contract_amended.2.2.1 503 [[("a", PyVal.int 1)]]
      (by decide) (by decide)).1,
    (remote_client_contract_amended.2.2.2.2.2.2.2.1 503 [[("a", PyVal.int 1)]]).1⟩

/-! ## Record filtering and the synchronous write paths -/

theorem lookup_filter_none (d : PyDict) (p : String × PyVal → Bool) (k : String)
    (h : ∀ q ∈ d, q.1 ≠ k) : (d.filter p).lookup k = Option.none := by
  induction d with
  | nil => rfl
  | cons q d ih =>
    have hq : q.1 ≠ k := h q (List.mem_cons_self q d)
    have hrec := ih (fun q2 hq2 => h q2 (List.mem_cons_of_mem q hq2))
    by_cases hp : p q
    · rw [List.filter_cons, if_pos hp]
      cases q with
      | mk k1 v1 =>
        have hb : (k == k1) = false :=
          beq_eq_false_iff_ne.mpr (fun he => hq he.symm)
        have hstep : List.lookup k ((k1, v1) :: List.filter p d)
            = match k == k1 with
              | true => some v1
              | false => List.lookup k (List.filter p d) := rfl
        rw [hstep, hb]
        exact hrec
    · simp only [List.filter_cons]
      rw [if_neg (by simpa using hp)]
      exact hrec

theorem stripNone_lookup (d : PyDict) (k : String) (h : (d.map Prod.fst).Nodup) :
    (stripNone d).lookup k =
      match d.lookup k with
      | some v => if v.isNone then Option.none else some v
      | Option.none => Option.none := by
  induction d with
  | nil => rfl
  | cons q d ih =>
    cases q with
    | mk k1 v1 =>
      simp only [List.map_cons, List.nodup_cons] at h
      obtain ⟨hk1, hnd⟩ := h
      by_cases hkk : k = k1
      · subst hkk
        simp only [List.lookup, beq_self_eq_true]
        by_cases hv : v1.isNone
        · have : stripNone ((k, v1) :: d) = stripNone d := by
            simp [stripNone, List.filter_cons, hv]
          rw [this, if_pos hv]
          apply lookup_filter_none
          intro q2 hq2 hq2k
          exact hk1 (List.mem_map.mpr ⟨q2, hq2, hq2k⟩)
        · have : stripNone ((k, v1) :: d) = (k, v1) :: stripNone d := by
            simp [stripNone, List.filter_cons, hv]
          rw [this, if_neg hv]
          simp [List.lookup]
      · have hbeq : (k == k1) = false := by simpa using hkk
        by_cases hv : v1.isNone
        · have : stripNone ((k1, v1) :: d) = stripNone d := by
            simp [stripNone, List.filter_cons, hv]
          rw [this]
          simp only [List.lookup, hbeq]
          exact ih hnd
        · have : stripNone ((k1, v1) :: d) = (k1, v1) :: stripNone d := by
            simp [stripNone, List.filter_cons, hv]
          rw [this]
          simp only [List.lookup, hbeq]
          exact ih hnd

/-- A key is present in a record and bound to a non-`None` value. -/
def presentNonNull (r : PyDict) (k : String) : Bool :=
  match r.lookup k with
  | some v => !v.isNone
  | Option.none => false

/-- The five mandatory trade fields. -/
def mandFields : List String :=
  ["proxy_wallet", "side", "size", "price", "timestamp"]

/-- `insert_trades` from `database/load_data_to_db.py`, parameterised by
which insert requests the backend accepts (`ok`).  Exceptions from
`transform_trade_data` are caught by the per-record `try` and skip the
record; backend rejections (duplicate or otherwise) are also skipped and
never counted.  Returns the count of successful inserts together with the
list of records for which an insert request was actually issued. -/
def insert_trades (ok : PyDict → Bool) : List PyDict → Nat × List PyDict
  | [] => (0, [])
  | t :: ts =>
    let rest := insert_trades ok ts
    match transform_trade_data t with
    | Option.none => rest
    | some r =>
      let r2 := stripNone r
      if mandOk r2 then
        ((if ok r2 then 1 else 0) + rest.1, r2 :: rest.2)
      else rest

/-- `upsert_users` from `database/load_data_to_db.py`, parameterised by which
upsert requests succeed.  Returns the count of successful upserts and the
list of wallets for which an upsert request was issued. -/
def upsert_users (ok : PyDict → Bool) : List PyDict → Nat × List PyVal
  | [] => (0, [])
  | u :: us =>
    let rest := upsert_users ok us
    let u2 := stripNone u
    if truthy (dget u2 "proxy_wallet") then
      ((if ok u2 then 1 else 0) + rest.1, dget u2 "proxy_wallet" :: rest.2)
    else rest

/-- The transform-and-filter loop of `insert_trades_batch` from
`database/init_data_async.py`: unlike the synchronous path it has no
per-record `try`, so a raising transform aborts the whole batch
(`Option.none`); otherwise it returns the list of valid trades handed to
`bulk_insert`. -/
def insert_trades_batch_valid : List PyDict → Option (List PyDict)
  | [] => some []
  | t :: ts =>
    match transform_trade_data t with
    | Option.none => Option.none
    | some r =>
      let r2 := stripNone r
      match insert_trades_batch_valid ts with
      | Option.none => Option.none
      | some vs => some (if mandOk r2 then r2 :: vs else vs)

theorem truthy_dget_presentNonNull (r : PyDict) (k : String)
    (h : truthy (dget r k) = true) : presentNonNull r k = true := by
  unfold dget dgetD at h
  unfold presentNonNull
  cases hl : r.lookup k with
  | none => rw [hl] at h; simp [truthy] at h
  | some v =>
    rw [hl] at h
    simp only [Option.getD_some] at h
    cases v <;> simp_all [truthy, PyVal.isNone]

theorem mandOk_presentNonNull (r : PyDict) (h : mandOk r = true) :
    mandFields.all (presentNonNull r) = true := by
  simp only [mandOk, Bool.and_eq_true] at h
  obtain ⟨⟨⟨⟨h1, h2⟩, h3⟩, h4⟩, h5⟩ := h
  simp [mandFields, truthy_dget_presentNonNull r _ h1,
    truthy_dget_presentNonNull r _ h2, truthy_dget_presentNonNull r _ h3,
    truthy_dget_presentNonNull r _ h4, truthy_dget_presentNonNull r _ h5]

theorem insert_trades_attempted_mandOk (ok : PyDict → Bool)
    (trades : List PyDict) :
    ∀ r ∈ (insert_trades ok trades).2, mandOk r = true := by
  induction trades with
  | nil => intro r hr; simp [insert_trades] at hr
  | cons t ts ih =>
    intro r hr
    simp only [insert_trades] at hr
    cases htr : transform_trade_data t with
    | none => simp only [htr] at hr; exact ih r hr
    | some r0 =>
      simp only [htr] at hr
      by_cases hm : mandOk (stripNone r0)
      · rw [if_pos hm] at hr
        have hr2 : r ∈ stripNone r0 :: (insert_trades ok ts).2 := hr
        rcases List.mem_cons.mp hr2 with h | h
        · subst h; exact hm
        · exact ih r h
      · rw [if_neg hm] at hr
        exact ih r hr

theorem insert_trades_batch_valid_mandOk (trades : List PyDict) :
    ∀ r ∈ (insert_trades_batch_valid trades).getD [], mandOk r = true := by
  induction trades with
  | nil => intro r hr; simp [insert_trades_batch_valid] at hr
  | cons t ts ih =>
    intro r hr
    simp only [insert_trades_batch_valid] at hr
    cases htr : transform_trade_data t with
    | none => simp only [htr] at hr; simp at hr
    | some r0 =>
      simp only [htr] at hr
      cases hv : insert_trades_batch_valid ts with
      | none => simp only [hv] at hr; simp at hr
      | some vs =>
        simp only [hv, Option.getD_some] at hr
        by_cases hm : mandOk (stripNone r0)
        · rw [if_pos hm] at hr
          rcases List.mem_cons.mp hr with h | h
          · subst h; exact hm
          · exact ih r (by rw [hv]; exact h)
        · rw [if_neg hm] at hr
          exact ih r (by rw [hv]; exact hr)

/-- C4: every trade record for which a write is actually attempted — in the
synchronous `insert_trades` path and in the `insert_trades_batch` bulk path —
has all five mandatory fields present and non-null; a record lacking any of
them never reaches the write (it is filtered out before the request). -/
theorem trade_mandatory_fields_enforced :
    (∀ (ok : PyDict → Bool) (trades : List PyDict),
      ((insert_trades ok trades).2.all (fun r => mandFields.all (presentNonNull r))) = true)
    ∧ (∀ trades : List PyDict,
      (((insert_trades_batch_valid trades).getD []).all
        (fun r => mandFields.all (presentNonNull r))) = true) := by
  constructor
  · intro ok trades
    apply List.all_eq_true.mpr
    intro r hr
    exact mandOk_presentNonNull r (insert_trades_attempted_mandOk ok trades r hr)
  · intro trades
    apply List.all_eq_true.mpr
    intro r hr
    exact mandOk_presentNonNull r (insert_trades_batch_valid_mandOk trades r hr)

theorem transform_trade_fields (t : PyDict) (r : PyDict)
    (h : transform_trade_data t = some r) :
    r.lookup "size" = some (dget t "size")
    ∧ r.lookup "price" = some (dget t "price")
    ∧ r.lookup "timestamp" = some (dget t "timestamp")
    ∧ r.lookup "proxy_wallet" = some (dget t "proxyWallet")
    ∧ (r.map Prod.fst).Nodup := by
  cases hdt : pdDatetimeIso (dget t "timestamp") with
  | none => simp [transform_trade_data, hdt] at h
  | some dtv =>
    simp only [transform_trade_data, hdt, Option.some.injEq] at h
    subst h
    refine ⟨rfl, rfl, rfl, rfl, ?_⟩
    show (["transaction_hash", "proxy_wallet", "condition_id", "slug", "side",
      "asset", "outcome", "outcome_index", "size", "price", "timestamp",
      "datetime", "title", "icon", "event_slug"] : List String).Nodup
    decide

theorem transform_trade_ts0 (t : PyDict) (r : PyDict)
    (h : transform_trade_data t = some r)
    (h0 : dget t "timestamp" = PyVal.int 0) :
    r.lookup "datetime" = some PyVal.none := by
  have hpd : pdDatetimeIso (dget t "timestamp") = some PyVal.none := by
    rw [h0]; rfl
  simp only [transform_trade_data, hpd, Option.some.injEq] at h
  subst h
  rfl

theorem mandOk_false_of_zero_field (t : PyDict) (r : PyDict) (k : String)
    (htr : transform_trade_data t = some r)
    (hk : r.lookup k = some (dget t k))
    (h0 : dget t k = PyVal.int 0)
    (hkmem : k = "size" ∨ k = "price" ∨ k = "timestamp") :
    mandOk (stripNone r) = false := by
  have hnd := (transform_trade_fields t r htr).2.2.2.2
  have hlook : (stripNone r).lookup k = some (PyVal.int 0) := by
    rw [stripNone_lookup r k hnd, hk, h0]
    rfl
  have hdg : dget (stripNone r) k = PyVal.int 0 := by
    simp [dget, dgetD, hlook]
  rcases hkmem with rfl | rfl | rfl <;>
    simp [mandOk, hdg, truthy]

/-- C10: a trade whose mandatory `size`, `price` or `timestamp` field is
present but bound to the falsy value 0 is discarded by `insert_trades`
before any write is attempted (the mandatory-field check tests Python
truthiness, not presence), and a zero timestamp additionally suppresses the
derived `datetime` field: it is computed as `None` and stripped from the
written record. -/
theorem falsy_mandatory_discard :
    (∀ (ok : PyDict → Bool) (t : PyDict) (rest : List PyDict),
      (t.lookup "size" = some (PyVal.int 0) ∨ t.lookup "price" = some (PyVal.int 0) ∨
        t.lookup "timestamp" = some (PyVal.int 0)) →
      insert_trades ok (t :: rest) = insert_trades ok rest)
    ∧ (∀ t : PyDict, t.lookup "timestamp" = some (PyVal.int 0) →
      (transform_trade_data t).isSome = true ∧
      ∀ r, transform_trade_data t = some r →
        (stripNone r).lookup "datetime" = Option.none) := by
  constructor
  · intro ok t rest hcase
    simp only [insert_trades]
    cases htr : transform_trade_data t with
    | none => rfl
    | some r =>
      have hf := transform_trade_fields t r htr
      have mandFalse : mandOk (stripNone r) = false := by
        rcases hcase with hs | hp | ht2
        · exact mandOk_false_of_zero_field t r "size" htr hf.1
            (by simp [dget, dgetD, hs]) (Or.inl rfl)
        · exact mandOk_false_of_zero_field t r "price" htr hf.2.1
            (by simp [dget, dgetD, hp]) (Or.inr (Or.inl rfl))
        · exact mandOk_false_of_zero_field t r "timestamp" htr hf.2.2.1
            (by simp [dget, dgetD, ht2]) (Or.inr (Or.inr rfl))
      simp [mandFalse]
  · intro t ht
    have h0 : dget t "timestamp" = PyVal.int 0 := by
      simp [dget, dgetD, ht]
    have hpd : pdDatetimeIso (dget t "timestamp") = some PyVal.none := by
      rw [h0]; rfl
    constructor
    · simp [transform_trade_data, hpd]
    · intro r hr
      have hnd := (transform_trade_fields t r hr).2.2.2.2
      have hdt := transform_trade_ts0 t r hr h0
      rw [stripNone_lookup r "datetime" hnd, hdt]
      rfl

/-- Witness for C10: a trade with zero size is dropped, and a trade with
zero timestamp keeps no `datetime` field in its written record. -/
theorem falsy_mandatory_discard_witness :
    ([("size", PyVal.int 0)] : PyDict).lookup "size" = some (PyVal.int 0) ∧
      insert_trades (fun _ => true) [[("size", PyVal.int 0)]] =
        insert_trades (fun _ => true) [] ∧
      ([("timestamp", PyVal.int 0)] : PyDict).lookup "timestamp" =
        some (PyVal.int 0) ∧
      (transform_trade_data [("timestamp", PyVal.int 0)]).isSome = true :=
  ⟨rfl,
    falsy_mandatory_discard.1 (fun _ => true) [("size", PyVal.int 0)] [] (Or.inl rfl),
    rfl,
    (falsy_mandatory_discard.2 [("timestamp", PyVal.int 0)] rfl).1⟩

/-- Values accepted by Python `len` (the `markets` field of an event must be
one of these or `transform_event_data` raises `TypeError`). -/
def sized : PyVal → Bool
  | .str _ => true
  | .list _ => true
  | .dict _ => true
  | _ => false

/-- Integer-valued embedded value. -/
def isIntVal : PyVal → Bool
  | .int _ => true
  | _ => false

/-- A `timestamp` value that `transform_trade_data` survives: either falsy
(no conversion is attempted) or a numeric epoch. -/
def epochOk (v : PyVal) : Bool :=
  !truthy v || isIntVal v

/-- Counterexample to C3 as stated: the transformers are not total over
arbitrary field value types — `transform_event_data` raises on a `None`
`markets` value (`len(None)` is a `TypeError`), and `transform_trade_data`
raises on a truthy non-numeric `timestamp` (`pd.to_datetime` fails). -/
theorem transformers_throw_cex :
    transform_event_data [("markets", PyVal.none)] = Option.none
    ∧ transform_trade_data [("timestamp", PyVal.str "not-a-number")] = Option.none :=
  ⟨rfl, rfl⟩

theorem pdDatetimeIso_isSome_of_epochOk (v : PyVal) (h : epochOk v = true) :
    (pdDatetimeIso v).isSome = true := by
  unfold epochOk at h
  unfold pdDatetimeIso
  cases htr : truthy v with
  | false => simp
  | true =>
    rw [htr] at h
    simp only [Bool.not_true, Bool.false_or] at h
    cases v <;> simp_all [isIntVal]

/-- C3 (amended): `transform_market_data` and `transform_user_data` are total
mapping functions (every input yields a record of the fixed shape), while
`transform_event_data` is total only on inputs whose `markets` value (when
present) is sized, and `transform_trade_data` is total only on inputs whose
`timestamp` value is falsy or numeric; all four are side-effect-free
mappings. -/
theorem transformers_totality_amended :
    (∀ e : PyDict, sized (dgetD e "markets" (PyVal.list [])) = true →
      (transform_event_data e).isSome = true)
    ∧ (∀ t : PyDict, epochOk (dget t "timestamp") = true →
      (transform_trade_data t).isSome = true)
    ∧ (∀ (m : PyDict) (eid : PyVal), (transform_market_data m eid).length = 72)
    ∧ (∀ t : PyDict, (transform_user_data t).map Prod.fst =
        ["proxy_wallet", "name", "pseudonym", "bio", "profile_image",
          "profile_image_optimized"]) := by
  refine ⟨?_, ?_, fun m eid => rfl, fun t => rfl⟩
  · intro e he
    unfold transform_event_data
    cases hv : dgetD e "markets" (PyVal.list []) <;>
      simp_all [sized, pyLen]
  · intro t ht
    unfold transform_trade_data
    cases hpd : pdDatetimeIso (dget t "timestamp") with
    | none =>
      have := pdDatetimeIso_isSome_of_epochOk (dget t "timestamp") ht
      rw [hpd] at this
      simp at this
    | some dtv => simp [hpd]

/-- Witness for the amended C3 at concrete inputs. -/
theorem transformers_totality_amended_witness :
    sized (dgetD [("markets", PyVal.list [])] "markets" (PyVal.list [])) = true ∧
      (transform_event_data [("markets", PyVal.list [])]).isSome = true ∧
      epochOk (dget [("timestamp", PyVal.int 5)] "timestamp") = true ∧
      (transform_trade_data [("timestamp", PyVal.int 5)]).isSome = true ∧
      (transform_market_data [] PyVal.none).length = 72 ∧
      (transform_user_data []).map Prod.fst =
        ["proxy_wallet", "name", "pseudonym", "bio", "profile_image",
          "profile_image_optimized"] :=
  ⟨rfl, transformers_totality_amended.1 [("markets", PyVal.list [])] rfl,
    rfl, transformers_totality_amended.2.1 [("timestamp", PyVal.int 5)] rfl,
    transformers_totality_amended.2.2.1 [] PyVal.none,
    transformers_totality_amended.2.2.2 []⟩

/-! ## Pagination drivers -/

/-- Database write events, in issuance order: a user upsert for a wallet, or
a trade insert for a transformed record. -/
inductive Ev where
  | user (w : PyVal)
  | trade (r : PyDict)

/-- Result of one run of the synchronous per-market trade pagination loop. -/
structure SyncRun where
  offsets : List Nat
  fetched : Nat
  inserted : Nat
  events : List Ev
  pagesNonempty : Nat
  finalOffset : Nat
  halted : Bool

/-- The inner per-market pagination loop of `init_load_all_trades_by_market`
(`database/init_data.py`): fetch a page at the current offset, stop on an
empty page, upsert the page's users, insert its trades, advance the offset
by `batchSize`, and stop after a short page.  `pages` is the upstream oracle
(the trades returned at a given offset); `okU` / `okT` say which user
upserts / trade inserts the backend accepts; `fuel` bounds the iterations of
the shallow embedding (`halted = false` means fuel ran out before the loop
finished). -/
def init_load_all_trades_by_market (okU okT : PyDict → Bool)
    (pages : Nat → List PyDict) (batchSize : Nat) :
    Nat → Nat → SyncRun
  | 0, offset => ⟨[], 0, 0, [], 0, offset, false⟩
  | fuel + 1, offset =>
    let batch := pages offset
    if batch.isEmpty then ⟨[offset], 0, 0, [], 0, offset, true⟩
    else
      let ures := upsert_users okU (batch.map transform_user_data)
      let tres := insert_trades okT batch
      let evs := ures.2.map Ev.user ++ tres.2.map Ev.trade
      if batch.length < batchSize then
        ⟨[offset], batch.length, tres.1, evs, 1, offset + batchSize, true⟩
      else
        let r := init_load_all_trades_by_market okU okT pages batchSize fuel
          (offset + batchSize)
        ⟨offset :: r.offsets, batch.length + r.fetched, tres.1 + r.inserted,
          evs ++ r.events, r.pagesNonempty + 1, r.finalOffset, r.halted⟩

/-- Result of one run of the asynchronous per-market fetch loop. -/
structure AsyncRun where
  trades : List PyDict
  offsets : List Nat
  pagesNonempty : Nat
  finalOffset : Nat
  halted : Bool

/-- `fetch_all_trades_for_market` from `database/init_data_async.py`: fetch a
page, stop on an empty page, append it, advance the offset by `batchSize`,
then stop if the accumulated total has reached `maxTrades` or the page was
short.  The cap is checked only after the page has been appended. -/
def fetch_all_trades_for_market (pages : Nat → List PyDict)
    (batchSize maxTrades : Nat) : Nat → List PyDict → Nat → AsyncRun
  | 0, acc, offset => ⟨acc, [], 0, offset, false⟩
  | fuel + 1, acc, offset =>
    let batch := pages offset
    if batch.isEmpty then ⟨acc, [offset], 0, offset, true⟩
    else
      let acc2 := acc ++ batch
      let offset2 := offset + batchSize
      if maxTrades ≤ acc2.length then ⟨acc2, [offset], 1, offset2, true⟩
      else if batch.length < batchSize then ⟨acc2, [offset], 1, offset2, true⟩
      else
        let r := fetch_all_trades_for_market pages batchSize maxTrades fuel acc2 offset2
        ⟨r.trades, offset :: r.offsets, r.pagesNonempty + 1, r.finalOffset, r.halted⟩

theorem sync_offsets_arith (okU okT : PyDict → Bool)
    (pages : Nat → List PyDict) (batchSize : Nat) :
    ∀ (fuel offset : Nat),
      (init_load_all_trades_by_market okU okT pages batchSize fuel offset).offsets
        = List.range' offset
            (init_load_all_trades_by_market okU okT pages batchSize fuel
              offset).offsets.length batchSize
      ∧ (init_load_all_trades_by_market okU okT pages batchSize fuel
          offset).finalOffset
        = offset + batchSize *
            (init_load_all_trades_by_market okU okT pages batchSize fuel
              offset).pagesNonempty := by
  intro fuel
  induction fuel with
  | zero => intro offset; exact ⟨rfl, by simp [init_load_all_trades_by_market]⟩
  | succ f ih =>
    intro offset
    simp only [init_load_all_trades_by_market]
    by_cases hb : (pages offset).isEmpty
    · simp [hb, List.range']
    · rw [if_neg (by simp [hb])]
      by_cases hs : (pages offset).length < batchSize
      · rw [if_pos hs]
        exact ⟨rfl, by simp⟩
      · rw [if_neg hs]
        obtain ⟨ih1, ih2⟩ := ih (offset + batchSize)
        refine ⟨?_, ?_⟩
        · show offset ::
            (init_load_all_trades_by_market okU okT pages batchSize f
              (offset + batchSize)).offsets = _
          rw [List.length_cons,
            show List.range' offset
                ((init_load_all_trades_by_market okU okT pages batchSize f
                  (offset + batchSize)).offsets.length + 1) batchSize
              = offset :: List.range' (offset + batchSize)
                  (init_load_all_trades_by_market okU okT pages batchSize f
                    (offset + batchSize)).offsets.length batchSize from rfl]
          rw [← ih1]
        · show (init_load_all_trades_by_market okU okT pages batchSize f
              (offset + batchSize)).finalOffset = _
          rw [ih2]
          ring
  
theorem async_offsets_arith (pages : Nat → List PyDict)
    (batchSize maxTrades : Nat) :
    ∀ (fuel : Nat) (acc : List PyDict) (offset : Nat),
      (fetch_all_trades_for_market pages batchSize maxTrades fuel acc
          offset).offsets
        = List.range' offset
            (fetch_all_trades_for_market pages batchSize maxTrades fuel acc
              offset).offsets.length batchSize
      ∧ (fetch_all_trades_for_market pages batchSize maxTrades fuel acc
          offset).finalOffset
        = offset + batchSize *
            (fetch_all_trades_for_market pages batchSize maxTrades fuel acc
              offset).pagesNonempty := by
  intro fuel
  induction fuel with
  | zero =>
    intro acc offset
    exact ⟨rfl, by simp [fetch_all_trades_for_market]⟩
  | succ f ih =>
    intro acc offset
    simp only [fetch_all_trades_for_market]
    by_cases hb : (pages offset).isEmpty
    · simp [hb, List.range']
    · rw [if_neg (by simp [hb])]
      by_cases hcap : maxTrades ≤ (acc ++ pages offset).length
      · rw [if_pos hcap]
        exact ⟨rfl, by simp⟩
      · rw [if_neg hcap]
        by_cases hs : (pages offset).length < batchSize
        · rw [if_pos hs]
          exact ⟨rfl, by simp⟩
        · rw [if_neg hs]
          obtain ⟨ih1, ih2⟩ := ih (acc ++ pages offset) (offset + batchSize)
          refine ⟨?_, ?_⟩
          · show offset ::
              (fetch_all_trades_for_market pages batchSize maxTrades f
                (acc ++ pages offset) (offset + batchSize)).offsets = _
            rw [List.length_cons,
              show List.range' offset
                  ((fetch_all_trades_for_market pages batchSize maxTrades f
                    (acc ++ pages offset) (offset + batchSize)).offsets.length
                    + 1) batchSize
                = offset :: List.range' (offset + batchSize)
                    (fetch_all_trades_for_market pages batchSize maxTrades f
                      (acc ++ pages offset)
                      (offset + batchSize)).offsets.length batchSize from rfl]
            rw [← ih1]
          · show (fetch_all_trades_for_market pages batchSize maxTrades f
                (acc ++ pages offset) (offset + batchSize)).finalOffset = _
            rw [ih2]
            ring

/-- Counterexample to C5 as stated: a single non-empty page of 37 records
with batch size 100 leaves the async driver's offset at 100, not at
0 + 37 — the driver advances by `batchSize` even when the page returned
fewer records. -/
theorem offset_advance_cex :
    (fetch_all_trades_for_market
        (fun o => if o == 0 then List.replicate 37 ([] : PyDict) else [])
        100 10000 5 [] 0).finalOffset = 100
    ∧ (100 : Nat) ≠ 0 + 37 :=
  ⟨rfl, by decide⟩

/-- C5 (amended): after every fetched non-empty page both per-market trade
drivers advance the offset by `batchSize` unconditionally — never by the
smaller actual count; the offsets actually fetched form the arithmetic
progression `offset, offset + batchSize, …`, and the final offset is the
start plus `batchSize` times the number of non-empty pages processed (a
short page terminates the cursor right after the advancement, so the
post-advance offset is never fetched). -/
theorem offset_advances_by_batch_amended (okU okT : PyDict → Bool)
    (pages : Nat → List PyDict) (batchSize maxTrades : Nat)
    (fuel offset : Nat) (acc : List PyDict) :
    ((init_load_all_trades_by_market okU okT pages batchSize fuel offset).offsets
      = List.range' offset
          (init_load_all_trades_by_market okU okT pages batchSize fuel
            offset).offsets.length batchSize
    ∧ (init_load_all_trades_by_market okU okT pages batchSize fuel
        offset).finalOffset
      = offset + batchSize *
          (init_load_all_trades_by_market okU okT pages batchSize fuel
            offset).pagesNonempty)
    ∧ ((fetch_all_trades_for_market pages batchSize maxTrades fuel acc
          offset).offsets
      = List.range' offset
          (fetch_all_trades_for_market pages batchSize maxTrades fuel acc
            offset).offsets.length batchSize
    ∧ (fetch_all_trades_for_market pages batchSize maxTrades fuel acc
        offset).finalOffset
      = offset + batchSize *
          (fetch_all_trades_for_market pages batchSize maxTrades fuel acc
            offset).pagesNonempty) :=
  ⟨sync_offsets_arith okU okT pages batchSize fuel offset,
    async_offsets_arith pages batchSize maxTrades fuel acc offset⟩

/-- A trade survives the transform-and-mandatory-field filter. -/
def validTrade (t : PyDict) : Bool :=
  match transform_trade_data t with
  | some r => mandOk (stripNone r)
  | Option.none => false

theorem insert_trades_count_all_ok (trades : List PyDict) :
    (insert_trades (fun _ => true) trades).1 = trades.countP validTrade := by
  induction trades with
  | nil => rfl
  | cons t ts ih =>
    simp only [insert_trades, List.countP_cons]
    cases htr : transform_trade_data t with
    | none =>
      have hv : validTrade t = false := by simp [validTrade, htr]
      simp [htr, hv, ih]
    | some r =>
      have hv : validTrade t = mandOk (stripNone r) := by simp [validTrade, htr]
      by_cases hm : mandOk (stripNone r)
      · simp [htr, hv, hm, ih]
        omega
      · simp [htr, hv, hm, ih]

theorem sync_loop_spec (okU : PyDict → Bool) (records : List PyDict)
    (b : Nat) (hb : 0 < b) :
    ∀ (fuel offset : Nat),
      (records.length - offset) / b + 2 ≤ fuel →
      (init_load_all_trades_by_market okU (fun _ => true)
          (fun o => (records.drop o).take b) b fuel offset).halted = true
      ∧ (init_load_all_trades_by_market okU (fun _ => true)
          (fun o => (records.drop o).take b) b fuel offset).offsets.length
        = (records.length - offset) / b + 1
      ∧ (init_load_all_trades_by_market okU (fun _ => true)
          (fun o => (records.drop o).take b) b fuel offset).fetched
        = (records.drop offset).length
      ∧ (init_load_all_trades_by_market okU (fun _ => true)
          (fun o => (records.drop o).take b) b fuel offset).inserted
        = (records.drop offset).countP validTrade := by
  intro fuel
  induction fuel with
  | zero => intro offset hf; exact absurd hf (Nat.not_succ_le_zero _)
  | succ f ih =>
    intro offset hf
    have hR : (records.drop offset).length = records.length - offset :=
      List.length_drop offset records
    simp only [init_load_all_trades_by_market]
    by_cases hnil : records.drop offset = []
    · have hbe : ((records.drop offset).take b).isEmpty = true := by
        simp [hnil]
      rw [if_pos hbe]
      have h0 : records.length - offset = 0 := by
        rw [← hR, hnil]; rfl
      simp [h0, hnil, Nat.zero_div]
    · have hne : (records.drop offset).take b ≠ [] := by
        intro h
        rcases List.take_eq_nil_iff.mp h with h1 | h1
        · omega
        · exact hnil h1
      have hbe : ((records.drop offset).take b).isEmpty = false := by
        rw [Bool.eq_false_iff]
        intro hc
        exact hne (List.isEmpty_iff.mp hc)
      rw [if_neg (by simp [hbe])]
      by_cases hshort : ((records.drop offset).take b).length < b
      · rw [if_pos hshort]
        have hlen : (records.drop offset).length < b := by
          rw [List.length_take] at hshort
          omega
        have htake : (records.drop offset).take b = records.drop offset :=
          List.take_of_length_le (Nat.le_of_lt hlen)
        have hdiv : (records.length - offset) / b = 0 :=
          Nat.div_eq_of_lt (by omega)
        simp [htake, hdiv, insert_trades_count_all_ok]
      · rw [if_neg hshort]
        have hge : b ≤ (records.drop offset).length := by
          rw [List.length_take] at hshort
          omega
        have htlen : ((records.drop offset).take b).length = b := by
          rw [List.length_take]
          omega
        have hdropdrop : records.drop (offset + b) = (records.drop offset).drop b := by
          rw [List.drop_drop]
        have hdiv : (records.length - offset) / b
            = (records.length - (offset + b)) / b + 1 := by
          rw [Nat.div_eq_sub_div hb (by omega)]
          congr 2
          omega
        obtain ⟨ihh, iho, ihf, ihi⟩ := ih (offset + b) (by omega)
        refine ⟨ihh, ?_, ?_, ?_⟩
        · show ((offset :: (init_load_all_trades_by_market okU (fun _ => true)
              (fun o => (records.drop o).take b) b f (offset + b)).offsets) :
                List Nat).length = _
          rw [List.length_cons, iho, hdiv]
        · show ((records.drop offset).take b).length
              + (init_load_all_trades_by_market okU (fun _ => true)
                  (fun o => (records.drop o).take b) b f (offset + b)).fetched = _
          rw [htlen, ihf, hdropdrop, List.length_drop, hR]
          omega
        · show (insert_trades (fun _ => true) ((records.drop offset).take b)).1
              + (init_load_all_trades_by_market okU (fun _ => true)
                  (fun o => (records.drop o).take b) b f (offset + b)).inserted = _
          rw [insert_trades_count_all_ok, ihi, hdropdrop,
            ← List.countP_append, List.take_append_drop]

/-- C6: against a synthetic upstream holding a finite record list served in
offset pages (pages of full `batchSize` followed by one short or empty page),
the synchronous per-market trade driver halts within the exhibited fuel,
performs exactly `records.length / batchSize + 1` page fetches, fetches
every record, and reports as written exactly the records passing the
mandatory-field filter (every backend insert accepted). -/
theorem pagination_termination_sum (okU : PyDict → Bool)
    (records : List PyDict) (b : Nat) (hb : 0 < b) :
    (init_load_all_trades_by_market okU (fun _ => true)
        (fun o => (records.drop o).take b) b (records.length / b + 2) 0).halted = true
    ∧ (init_load_all_trades_by_market okU (fun _ => true)
        (fun o => (records.drop o).take b) b (records.length / b + 2) 0).offsets.length
      = records.length / b + 1
    ∧ (init_load_all_trades_by_market okU (fun _ => true)
        (fun o => (records.drop o).take b) b (records.length / b + 2) 0).fetched
      = records.length
    ∧ (init_load_all_trades_by_market okU (fun _ => true)
        (fun o => (records.drop o).take b) b (records.length / b + 2) 0).inserted
      = records.countP validTrade := by
  have h := sync_loop_spec okU records b hb (records.length / b + 2) 0
    (by rw [Nat.sub_zero])
  simpa only [Nat.sub_zero, List.drop_zero] using h

set_option maxRecDepth 4000 in
/-- Witness for C6: the spec's example scenario — 137 valid trades served at
batch size 100 (page 1: 100 trades, page 2: 37 trades) give exactly 2
fetches, 137 fetched, and 137 written. -/
theorem pagination_termination_sum_witness :
    0 < 100
    ∧ ((init_load_all_trades_by_market (fun _ => true) (fun _ => true)
        (fun o => ((List.replicate 137
            [("proxyWallet", PyVal.str "w"), ("side", PyVal.str "BUY"),
              ("size", PyVal.int 2), ("price", PyVal.int 1),
              ("timestamp", PyVal.int 10)]).drop o).take 100) 100
        ((List.replicate 137
            [("proxyWallet", PyVal.str "w"), ("side", PyVal.str "BUY"),
              ("size", PyVal.int 2), ("price", PyVal.int 1),
              ("timestamp", PyVal.int 10)]).length / 100 + 2) 0).halted = true
      ∧ (init_load_all_trades_by_market (fun _ => true) (fun _ => true)
          (fun o => ((List.replicate 137
              [("proxyWallet", PyVal.str "w"), ("side", PyVal.str "BUY"),
                ("size", PyVal.int 2), ("price", PyVal.int 1),
                ("timestamp", PyVal.int 10)]).drop o).take 100) 100
          ((List.replicate 137
              [("proxyWallet", PyVal.str "w"), ("side", PyVal.str "BUY"),
                ("size", PyVal.int 2), ("price", PyVal.int 1),
                ("timestamp", PyVal.int 10)]).length / 100 + 2) 0).offsets.length
        = (List.replicate 137
            [("proxyWallet", PyVal.str "w"), ("side", PyVal.str "BUY"),
              ("size", PyVal.int 2), ("price", PyVal.int 1),
              ("timestamp", PyVal.int 10)]).length / 100 + 1
      ∧ (init_load_all_trades_by_market (fun _ => true) (fun _ => true)
          (fun o => ((List.replicate 137
              [("proxyWallet", PyVal.str "w"), ("side", PyVal.str "BUY"),
                ("size", PyVal.int 2), ("price", PyVal.int 1),
                ("timestamp", PyVal.int 10)]).drop o).take 100) 100
          ((List.replicate 137
              [("proxyWallet", PyVal.str "w"), ("side", PyVal.str "BUY"),
                ("size", PyVal.int 2), ("price", PyVal.int 1),
                ("timestamp", PyVal.int 10)]).length / 100 + 2) 0).fetched
        = (List.replicate 137
            [("proxyWallet", PyVal.str "w"), ("side", PyVal.str "BUY"),
              ("size", PyVal.int 2), ("price", PyVal.int 1),
              ("timestamp", PyVal.int 10)]).length
      ∧ (init_load_all_trades_by_market (fun _ => true) (fun _ => true)
          (fun o => ((List.replicate 137
              [("proxyWallet", PyVal.str "w"), ("side", PyVal.str "BUY"),
                ("size", PyVal.int 2), ("price", PyVal.int 1),
                ("timestamp", PyVal.int 10)]).drop o).take 100) 100
          ((List.replicate 137
              [("proxyWallet", PyVal.str "w"), ("side", PyVal.str "BUY"),
                ("size", PyVal.int 2), ("price", PyVal.int 1),
                ("timestamp", PyVal.int 10)]).length / 100 + 2) 0).inserted
        = (List.replicate 137
            [("proxyWallet", PyVal.str "w"), ("side", PyVal.str "BUY"),
              ("size", PyVal.int 2), ("price", PyVal.int 1),
              ("timestamp", PyVal.int 10)]).countP validTrade) :=
  ⟨by decide,
    pagination_termination_sum (fun _ => true)
      (List.replicate 137
        [("proxyWallet", PyVal.str "w"), ("side", PyVal.str "BUY"),
          ("size", PyVal.int 2), ("price", PyVal.int 1),
          ("timestamp", PyVal.int 10)]) 100 (by decide)⟩

theorem async_cap_invariant (pages : Nat → List PyDict) (b maxT : Nat)
    (hb : 0 < b) (hdvd : b ∣ maxT) (hpages : ∀ o, (pages o).length ≤ b) :
    ∀ (fuel : Nat) (acc : List PyDict) (offset : Nat),
      b ∣ acc.length → acc.length < maxT →
      (fetch_all_trades_for_market pages b maxT fuel acc offset).trades.length ≤ maxT
      ∧ b * ((fetch_all_trades_for_market pages b maxT fuel acc
          offset).offsets.length - 1) ≤ maxT - acc.length := by
  intro fuel
  induction fuel with
  | zero =>
    intro acc offset hacc hlt
    refine ⟨Nat.le_of_lt hlt, ?_⟩
    show b * (([] : List Nat).length - 1) ≤ maxT - acc.length
    simp
  | succ f ih =>
    intro acc offset hacc hlt
    have hroom : acc.length + b ≤ maxT := by
      have hdvd2 : b ∣ maxT - acc.length := Nat.dvd_sub' hdvd hacc
      have hpos : 0 < maxT - acc.length := by omega
      have := Nat.le_of_dvd hpos hdvd2
      omega
    simp only [fetch_all_trades_for_market]
    by_cases hbe : (pages offset).isEmpty
    · rw [if_pos hbe]
      refine ⟨Nat.le_of_lt hlt, ?_⟩
      show b * (([offset] : List Nat).length - 1) ≤ maxT - acc.length
      simp
    · rw [if_neg (by simp [hbe])]
      have hblen : (pages offset).length ≤ b := hpages offset
      have hacc2 : (acc ++ pages offset).length = acc.length + (pages offset).length :=
        List.length_append acc (pages offset)
      by_cases hcap : maxT ≤ (acc ++ pages offset).length
      · rw [if_pos hcap]
        constructor
        · show (acc ++ pages offset).length ≤ maxT
          omega
        · show b * (([offset] : List Nat).length - 1) ≤ maxT - acc.length
          simp
      · rw [if_neg hcap]
        by_cases hshort : (pages offset).length < b
        · rw [if_pos hshort]
          constructor
          · show (acc ++ pages offset).length ≤ maxT
            omega
          · show b * (([offset] : List Nat).length - 1) ≤ maxT - acc.length
            simp
        · rw [if_neg hshort]
          have hfull : (pages offset).length = b := by omega
          have hacc2d : b ∣ (acc ++ pages offset).length := by
            rw [hacc2, hfull]
            exact Nat.dvd_add hacc (Nat.dvd_refl b)
          have hacc2lt : (acc ++ pages offset).length < maxT := by omega
          obtain ⟨ih1, ih2⟩ := ih (acc ++ pages offset) (offset + b) hacc2d hacc2lt
          refine ⟨ih1, ?_⟩
          show b * ((offset :: (fetch_all_trades_for_market pages b maxT f
              (acc ++ pages offset) (offset + b)).offsets).length - 1) ≤ _
          rw [List.length_cons, Nat.add_sub_cancel]
          cases hlence : (fetch_all_trades_for_market pages b maxT f
              (acc ++ pages offset) (offset + b)).offsets.length with
          | zero => simp
          | succ k =>
            rw [hlence, Nat.succ_sub_one] at ih2
            rw [Nat.mul_succ]
            omega

/-- Counterexample to C7 as stated: the cap check runs only after a fetched
page has been appended, so the accumulated total can exceed the cap —
with cap 10 and batch size 7, every page within the requested limit, the
cursor stops only at 14 fetched records, 4 more than the cap. -/
theorem trade_cap_exceeded_cex :
    10 < (fetch_all_trades_for_market
        (fun _ => [([] : PyDict), [], [], [], [], [], []])
        7 10 5 [] 0).trades.length
    ∧ (fetch_all_trades_for_market
        (fun _ => [([] : PyDict), [], [], [], [], [], []])
        7 10 5 [] 0).trades.length = 14
    ∧ (fetch_all_trades_for_market
        (fun _ => [([] : PyDict), [], [], [], [], [], []])
        7 10 5 [] 0).halted = true := by
  refine ⟨?_, ?_, ?_⟩
  · decide
  · decide
  · decide

/-- C7 (amended): the async per-market fetch checks the cap only after
appending a page, so in general the accumulated total can exceed the cap by
the overshoot of the final page; when every returned page is at most
`batchSize` records and `batchSize` divides the cap — as with the default
batch 100 and cap 10,000 — the accumulated total never exceeds the cap, and
reaching the cap terminates the market's cursor: the number of page fetches
is bounded by `cap / batchSize + 1`. -/
theorem trade_cap_bound_amended (pages : Nat → List PyDict)
    (b maxT fuel : Nat) (hb : 0 < b) (hdvd : b ∣ maxT) (hmax : 0 < maxT)
    (hpages : ∀ o, (pages o).length ≤ b) :
    (fetch_all_trades_for_market pages b maxT fuel [] 0).trades.length ≤ maxT
    ∧ b * ((fetch_all_trades_for_market pages b maxT fuel [] 0).offsets.length - 1)
      ≤ maxT := by
  have h := async_cap_invariant pages b maxT hb hdvd hpages fuel [] 0
    (by simp) (by simpa using hmax)
  exact ⟨h.1, Nat.le_trans h.2 (by simp)⟩

/-- Witness for the amended C7: full pages of 2 against cap 6 accumulate
exactly 6 trades over at most 4 fetches. -/
theorem trade_cap_bound_amended_witness :
    0 < 2 ∧ (2 : Nat) ∣ 6 ∧ 0 < 6 ∧
      (∀ o : Nat, ((fun _ : Nat => [([] : PyDict), []]) o).length ≤ 2) ∧
      ((fetch_all_trades_for_market (fun _ => [([] : PyDict), []]) 2 6 10 [] 0).trades.length ≤ 6
        ∧ 2 * ((fetch_all_trades_for_market (fun _ => [([] : PyDict), []]) 2 6 10
            [] 0).offsets.length - 1) ≤ 6) :=
  ⟨by decide, by decide, by decide, fun o => Nat.le_refl 2,
    trade_cap_bound_amended (fun _ => [[], []]) 2 6 10 (by decide) (by decide)
      (by decide) (fun o => Nat.le_refl 2)⟩

/-! ## User-before-trade ordering -/

mutual

theorem PyVal.eq_of_beq : ∀ (a b : PyVal), PyVal.beq a b = true → a = b
  | .none, .none, _ => rfl
  | .none, .bool _, h => nomatch h
  | .none, .int _, h => nomatch h
  | .none, .str _, h => nomatch h
  | .none, .list _, h => nomatch h
  | .none, .dict _, h => nomatch h
  | .bool _, .none, h => nomatch h
  | .bool a, .bool b, h => by
    have h2 : a = b := by simpa [PyVal.beq] using h
    rw [h2]
  | .bool _, .int _, h => nomatch h
  | .bool _, .str _, h => nomatch h
  | .bool _, .list _, h => nomatch h
  | .bool _, .dict _, h => nomatch h
  | .int _, .none, h => nomatch h
  | .int _, .bool _, h => nomatch h
  | .int a, .int b, h => by
    have h2 : a = b := by simpa [PyVal.beq] using h
    rw [h2]
  | .int _, .str _, h => nomatch h
  | .int _, .list _, h => nomatch h
  | .int _, .dict _, h => nomatch h
  | .str _, .none, h => nomatch h
  | .str _, .bool _, h => nomatch h
  | .str _, .int _, h => nomatch h
  | .str a, .str b, h => by
    have h2 : a = b := by simpa [PyVal.beq] using h
    rw [h2]
  | .str _, .list _, h => nomatch h
  | .str _, .dict _, h => nomatch h
  | .list _, .none, h => nomatch h
  | .list _, .bool _, h => nomatch h
  | .list _, .int _, h => nomatch h
  | .list _, .str _, h => nomatch h
  | .list as, .list bs, h => by
    have h2 : PyVal.beqList as bs = true := by simpa [PyVal.beq] using h
    rw [PyVal.eqList_of_beqList as bs h2]
  | .list _, .dict _, h => nomatch h
  | .dict _, .none, h => nomatch h
  | .dict _, .bool _, h => nomatch h
  | .dict _, .int _, h => nomatch h
  | .dict _, .str _, h => nomatch h
  | .dict _, .list _, h => nomatch h
  | .dict as, .dict bs, h => by
    have h2 : PyVal.beqDict as bs = true := by simpa [PyVal.beq] using h
    rw [PyVal.eqDict_of_beqDict as bs h2]

theorem PyVal.eqList_of_beqList :
    ∀ (as bs : List PyVal), PyVal.beqList as bs = true → as = bs
  | [], [], _ => rfl
  | [], _ :: _, h => nomatch h
  | _ :: _, [], h => nomatch h
  | a :: as, b :: bs, h => by
    have h2 : PyVal.beq a b = true ∧ PyVal.beqList as bs = true := by
      simpa [PyVal.beqList, Bool.and_eq_true] using h
    rw [PyVal.eq_of_beq a b h2.1, PyVal.eqList_of_beqList as bs h2.2]

theorem PyVal.eqDict_of_beqDict :
    ∀ (as bs : List (String × PyVal)), PyVal.beqDict as bs = true → as = bs
  | [], [], _ => rfl
  | [], _ :: _, h => nomatch h
  | _ :: _, [], h => nomatch h
  | (k, a) :: as, (l, b) :: bs, h => by
    have h2 : (k == l) = true ∧ PyVal.beq a b = true ∧ PyVal.beqDict as bs = true := by
      simpa [PyVal.beqDict, Bool.and_eq_true, and_assoc] using h
    have hk : k = l := by simpa using h2.1
    rw [hk, PyVal.eq_of_beq a b h2.2.1, PyVal.eqDict_of_beqDict as bs h2.2.2]

end

mutual

theorem PyVal.beq_refl : ∀ a : PyVal, PyVal.beq a a = true
  | .none => rfl
  | .bool b => by simp [PyVal.beq]
  | .int n => by simp [PyVal.beq]
  | .str s => by simp [PyVal.beq]
  | .list as => by
    have := PyVal.beqList_refl as
    simpa [PyVal.beq] using this
  | .dict as => by
    have := PyVal.beqDict_refl as
    simpa [PyVal.beq] using this

theorem PyVal.beqList_refl : ∀ as : List PyVal, PyVal.beqList as as = true
  | [] => rfl
  | a :: as => by
    have h1 := PyVal.beq_refl a
    have h2 := PyVal.beqList_refl as
    simp [PyVal.beqList, h1, h2]

theorem PyVal.beqDict_refl : ∀ as : List (String × PyVal), PyVal.beqDict as as = true
  | [] => rfl
  | (k, a) :: as => by
    have h1 := PyVal.beq_refl a
    have h2 := PyVal.beqDict_refl as
    simp [PyVal.beqDict, h1, h2]

end

instance : LawfulBEq PyVal where
  eq_of_beq h := PyVal.eq_of_beq _ _ h
  rfl := PyVal.beq_refl _

/-- Scan an event trace in issuance order, accumulating wallets of issued
user upserts; succeeds iff every trade insert names a wallet for which a
user upsert was issued strictly earlier in the trace (or was in the initial
`seen` set). -/
def checkUB (seen : List PyVal) : List Ev → Bool
  | [] => true
  | .user w :: rest => checkUB (w :: seen) rest
  | .trade r :: rest => seen.contains (dget r "proxy_wallet") && checkUB seen rest

/-- The wallet set accumulated after scanning a trace. -/
def seenAfter (seen : List PyVal) : List Ev → List PyVal
  | [] => seen
  | .user w :: rest => seenAfter (w :: seen) rest
  | .trade _ :: rest => seenAfter seen rest

theorem checkUB_append (A B : List Ev) :
    ∀ seen : List PyVal, checkUB seen A = true →
      checkUB (seenAfter seen A) B = true → checkUB seen (A ++ B) = true := by
  induction A with
  | nil => intro seen _ hB; exact hB
  | cons e A ih =>
    intro seen hA hB
    cases e with
    | user w =>
      simp only [List.cons_append, checkUB]
      exact ih (w :: seen) hA hB
    | trade r =>
      simp only [List.cons_append, checkUB, Bool.and_eq_true] at *
      exact ⟨hA.1, ih seen hA.2 hB⟩

theorem checkUB_user_shaped (A : List Ev)
    (h : ∀ e ∈ A, ∃ w, e = Ev.user w) :
    ∀ seen, checkUB seen A = true := by
  induction A with
  | nil => intro seen; rfl
  | cons e A ih =>
    intro seen
    obtain ⟨w, rfl⟩ := h e (List.mem_cons_self e A)
    simp only [checkUB]
    exact ih (fun e2 he2 => h e2 (List.mem_cons_of_mem _ he2)) (w :: seen)

theorem checkUB_trade_shaped (A : List Ev) (seen : List PyVal)
    (h : ∀ e ∈ A, ∃ r, e = Ev.trade r ∧ dget r "proxy_wallet" ∈ seen) :
    checkUB seen A = true := by
  induction A with
  | nil => rfl
  | cons e A ih =>
    obtain ⟨r, rfl, hw⟩ := h e (List.mem_cons_self e A)
    simp only [checkUB, Bool.and_eq_true]
    exact ⟨List.elem_iff.mpr hw, ih (fun e2 he2 => h e2 (List.mem_cons_of_mem _ he2))⟩

theorem seen_sub_seenAfter (A : List Ev) :
    ∀ (seen : List PyVal) (x : PyVal), x ∈ seen → x ∈ seenAfter seen A := by
  induction A with
  | nil => intro seen x hx; exact hx
  | cons e A ih =>
    intro seen x hx
    cases e with
    | user w => exact ih (w :: seen) x (List.mem_cons_of_mem w hx)
    | trade r => exact ih seen x hx

theorem seenAfter_mem_user (A : List Ev) :
    ∀ (seen : List PyVal) (w : PyVal), Ev.user w ∈ A → w ∈ seenAfter seen A := by
  induction A with
  | nil => intro seen w hw; simp at hw
  | cons e A ih =>
    intro seen w hw
    cases e with
    | user w2 =>
      rcases List.mem_cons.mp hw with h | h
      · cases h
        exact seen_sub_seenAfter A (w :: seen) w (List.mem_cons_self w seen)
      · exact ih (w2 :: seen) w h
    | trade r =>
      rcases List.mem_cons.mp hw with h | h
      · cases h
      · exact ih seen w h

theorem truthy_not_isNone (v : PyVal) (h : truthy v = true) : v.isNone = false := by
  cases v <;> simp_all [truthy, PyVal.isNone]

theorem stripNone_dget_of_lookup (d : PyDict) (k : String) (v : PyVal)
    (hnd : (d.map Prod.fst).Nodup) (hl : d.lookup k = some v)
    (hv : v.isNone = false) : dget (stripNone d) k = v := by
  have h := stripNone_lookup d k hnd
  simp only [hl, hv] at h
  simp [dget, dgetD, h]

theorem transform_user_nodup (t : PyDict) :
    ((transform_user_data t).map Prod.fst).Nodup := by
  show (["proxy_wallet", "name", "pseudonym", "bio", "profile_image",
    "profile_image_optimized"] : List String).Nodup
  decide

theorem user_wallet_strip (t : PyDict)
    (htr : truthy (dget t "proxyWallet") = true) :
    dget (stripNone (transform_user_data t)) "proxy_wallet" = dget t "proxyWallet" := by
  exact stripNone_dget_of_lookup (transform_user_data t) "proxy_wallet"
    (dget t "proxyWallet") (transform_user_nodup t) rfl
    (truthy_not_isNone _ htr)

theorem trade_wallet_link (t r0 : PyDict)
    (htr : transform_trade_data t = some r0)
    (hm : mandOk (stripNone r0) = true) :
    dget (stripNone r0) "proxy_wallet" = dget t "proxyWallet"
    ∧ truthy (dget t "proxyWallet") = true := by
  have hw : truthy (dget (stripNone r0) "proxy_wallet") = true := by
    simp only [mandOk, Bool.and_eq_true] at hm
    exact hm.1.1.1.1
  have hf := transform_trade_fields t r0 htr
  have hl := hf.2.2.2.1
  have hnd := hf.2.2.2.2
  by_cases hv : (dget t "proxyWallet").isNone
  · exfalso
    have h := stripNone_lookup r0 "proxy_wallet" hnd
    simp only [hl, hv, if_true] at h
    rw [show dget (stripNone r0) "proxy_wallet" = PyVal.none by
      simp [dget, dgetD, h]] at hw
    simp [truthy] at hw
  · have heq := stripNone_dget_of_lookup r0 "proxy_wallet" _ hnd hl
      (Bool.eq_false_iff.mpr hv)
    rw [heq] at hw
    exact ⟨heq, hw⟩

theorem upsert_users_wallet_mem (ok : PyDict → Bool) (us : List PyDict) :
    ∀ u ∈ us, truthy (dget (stripNone u) "proxy_wallet") = true →
      dget (stripNone u) "proxy_wallet" ∈ (upsert_users ok us).2 := by
  induction us with
  | nil => intro u hu; simp at hu
  | cons u0 us ih =>
    intro u hu htr
    simp only [upsert_users]
    rcases List.mem_cons.mp hu with h | h
    · subst h
      rw [if_pos htr]
      by_cases hok : ok (stripNone u)
      · rw [if_pos hok]
        exact List.mem_cons_self _ _
      · rw [if_neg hok]
        exact List.mem_cons_self _ _
    · by_cases hg : truthy (dget (stripNone u0) "proxy_wallet")
      · rw [if_pos hg]
        by_cases hok : ok (stripNone u0)
        · rw [if_pos hok]
          exact List.mem_cons_of_mem _ (ih u h htr)
        · rw [if_neg hok]
          exact List.mem_cons_of_mem _ (ih u h htr)
      · rw [if_neg hg]
        exact ih u h htr

theorem insert_trades_attempted_src (ok : PyDict → Bool) (ts : List PyDict) :
    ∀ r ∈ (insert_trades ok ts).2, ∃ t ∈ ts, ∃ r0,
      transform_trade_data t = some r0 ∧ r = stripNone r0 := by
  induction ts with
  | nil => intro r hr; simp [insert_trades] at hr
  | cons t ts ih =>
    intro r hr
    simp only [insert_trades] at hr
    cases htr : transform_trade_data t with
    | none =>
      simp only [htr] at hr
      obtain ⟨t2, ht2, r0, h1, h2⟩ := ih r hr
      exact ⟨t2, List.mem_cons_of_mem _ ht2, r0, h1, h2⟩
    | some r0 =>
      simp only [htr] at hr
      by_cases hm : mandOk (stripNone r0)
      · rw [if_pos hm] at hr
        have hr2 : r ∈ stripNone r0 :: (insert_trades ok ts).2 := hr
        rcases List.mem_cons.mp hr2 with h | h
        · exact ⟨t, List.mem_cons_self t ts, r0, htr, h⟩
        · obtain ⟨t2, ht2, r1, h1, h2⟩ := ih r h
          exact ⟨t2, List.mem_cons_of_mem _ ht2, r1, h1, h2⟩
      · rw [if_neg hm] at hr
        obtain ⟨t2, ht2, r1, h1, h2⟩ := ih r hr
        exact ⟨t2, List.mem_cons_of_mem _ ht2, r1, h1, h2⟩

theorem block_checkUB (okU okT : PyDict → Bool) (batch : List PyDict)
    (seen : List PyVal) :
    checkUB seen ((upsert_users okU (batch.map transform_user_data)).2.map Ev.user
      ++ (insert_trades okT batch).2.map Ev.trade) = true := by
  apply checkUB_append
  · apply checkUB_user_shaped
    intro e he
    rcases List.mem_map.mp he with ⟨w, _, rfl⟩
    exact ⟨w, rfl⟩
  · apply checkUB_trade_shaped
    intro e he
    rcases List.mem_map.mp he with ⟨r, hr, rfl⟩
    refine ⟨r, rfl, ?_⟩
    have hmand := insert_trades_attempted_mandOk okT batch r hr
    obtain ⟨t, ht, r0, htr0, rfl⟩ := insert_trades_attempted_src okT batch r hr
    obtain ⟨heq, htruthy⟩ := trade_wallet_link t r0 htr0 hmand
    rw [heq]
    apply seenAfter_mem_user
    apply List.mem_map.mpr
    refine ⟨dget t "proxyWallet", ?_, rfl⟩
    have hustrip := user_wallet_strip t htruthy
    have := upsert_users_wallet_mem okU (batch.map transform_user_data)
      (transform_user_data t) (List.mem_map.mpr ⟨t, ht, rfl⟩)
      (by rw [hustrip]; exact htruthy)
    rwa [hustrip] at this

theorem sync_events_ordered (okU okT : PyDict → Bool)
    (pages : Nat → List PyDict) (b : Nat) :
    ∀ (fuel offset : Nat) (seen : List PyVal),
      checkUB seen
        (init_load_all_trades_by_market okU okT pages b fuel offset).events = true := by
  intro fuel
  induction fuel with
  | zero => intro offset seen; rfl
  | succ f ih =>
    intro offset seen
    simp only [init_load_all_trades_by_market]
    by_cases hbe : (pages offset).isEmpty
    · rw [if_pos hbe]; rfl
    · rw [if_neg (by simp [hbe])]
      by_cases hs : (pages offset).length < b
      · rw [if_pos hs]
        exact block_checkUB okU okT (pages offset) seen
      · rw [if_neg hs]
        show checkUB seen
          (((upsert_users okU ((pages offset).map transform_user_data)).2.map Ev.user
            ++ (insert_trades okT (pages offset)).2.map Ev.trade)
            ++ (init_load_all_trades_by_market okU okT pages b f (offset + b)).events)
          = true
        apply checkUB_append
        · exact block_checkUB okU okT (pages offset) seen
        · exact ih (offset + b) _

/-- Python dict insert-or-replace for the wallet-keyed user dicts
(`{u["proxy_wallet"]: u for u in users if u.get("proxy_wallet")}`): replace
the value of an existing key in place, else append the binding. -/
def dictInsert (m : List (PyVal × PyDict)) (k : PyVal) (v : PyDict) :
    List (PyVal × PyDict) :=
  if m.any (fun p => p.1 == k) then
    m.map (fun p => if p.1 == k then (k, v) else p)
  else m ++ [(k, v)]

/-- The wallet-keyed dict comprehension over a user list: users with a falsy
`proxy_wallet` are skipped, later users override earlier ones per wallet. -/
def uniqueUsersAux : List (PyVal × PyDict) → List PyDict → List (PyVal × PyDict)
  | m, [] => m
  | m, u :: us =>
    uniqueUsersAux
      (if truthy (dget u "proxy_wallet") then dictInsert m (dget u "proxy_wallet") u
        else m) us

/-- Invariant of the wallet-keyed user dict: every binding maps a truthy
wallet to a user record whose stripped `proxy_wallet` equals that wallet. -/
def walletKeyed (m : List (PyVal × PyDict)) : Prop :=
  ∀ p ∈ m, dget (stripNone p.2) "proxy_wallet" = p.1 ∧ truthy p.1 = true

theorem dictInsert_walletKeyed (m : List (PyVal × PyDict)) (k : PyVal)
    (v : PyDict) (hm : walletKeyed m)
    (hv : dget (stripNone v) "proxy_wallet" = k) (hk : truthy k = true) :
    walletKeyed (dictInsert m k v) := by
  intro p hp
  unfold dictInsert at hp
  by_cases hany : m.any (fun p => p.1 == k)
  · rw [if_pos hany] at hp
    rcases List.mem_map.mp hp with ⟨p0, hp0, rfl⟩
    by_cases hb : p0.1 == k
    · rw [if_pos hb]
      exact ⟨hv, hk⟩
    · rw [if_neg hb]
      exact hm p0 hp0
  · rw [if_neg hany] at hp
    rcases List.mem_append.mp hp with h | h
    · exact hm p h
    · rcases List.mem_singleton.mp h with rfl
      exact ⟨hv, hk⟩

theorem dictInsert_key_self (m : List (PyVal × PyDict)) (k : PyVal)
    (v : PyDict) : ∃ p ∈ dictInsert m k v, p.1 = k := by
  unfold dictInsert
  by_cases hany : m.any (fun p => p.1 == k)
  · rw [if_pos hany]
    rcases List.any_eq_true.mp hany with ⟨p0, hp0, hb⟩
    refine ⟨(k, v), List.mem_map.mpr ⟨p0, hp0, ?_⟩, rfl⟩
    rw [if_pos hb]
  · rw [if_neg hany]
    exact ⟨(k, v), List.mem_append.mpr (Or.inr (List.mem_singleton.mpr rfl)), rfl⟩

theorem dictInsert_key_mono (m : List (PyVal × PyDict)) (k k2 : PyVal)
    (v : PyDict) (h : ∃ p ∈ m, p.1 = k2) :
    ∃ p ∈ dictInsert m k v, p.1 = k2 := by
  obtain ⟨p0, hp0, hk2⟩ := h
  unfold dictInsert
  by_cases hany : m.any (fun p => p.1 == k)
  · rw [if_pos hany]
    by_cases hb : p0.1 == k
    · have hkk2 : k = k2 := by
        have := eq_of_beq hb
        rw [← this, hk2]
      refine ⟨(k, v), List.mem_map.mpr ⟨p0, hp0, ?_⟩, hkk2⟩
      rw [if_pos hb]
    · refine ⟨p0, List.mem_map.mpr ⟨p0, hp0, ?_⟩, hk2⟩
      rw [if_neg hb]
  · rw [if_neg hany]
    exact ⟨p0, List.mem_append.mpr (Or.inl hp0), hk2⟩

theorem uniqueUsersAux_key_mono (us : List PyDict) :
    ∀ (m : List (PyVal × PyDict)) (k2 : PyVal), (∃ p ∈ m, p.1 = k2) →
      ∃ p ∈ uniqueUsersAux m us, p.1 = k2 := by
  induction us with
  | nil => intro m k2 h; exact h
  | cons u us ih =>
    intro m k2 h
    simp only [uniqueUsersAux]
    by_cases ht : truthy (dget u "proxy_wallet")
    · rw [if_pos ht]
      exact ih _ k2 (dictInsert_key_mono m _ k2 u h)
    · rw [if_neg ht]
      exact ih _ k2 h

theorem uniqueUsersAux_key_mem (us : List PyDict) :
    ∀ (m : List (PyVal × PyDict)) (u : PyDict), u ∈ us →
      truthy (dget u "proxy_wallet") = true →
      ∃ p ∈ uniqueUsersAux m us, p.1 = dget u "proxy_wallet" := by
  induction us with
  | nil => intro m u hu; simp at hu
  | cons u0 us ih =>
    intro m u hu htr
    simp only [uniqueUsersAux]
    rcases List.mem_cons.mp hu with h | h
    · subst h
      rw [if_pos htr]
      exact uniqueUsersAux_key_mono us _ _ (dictInsert_key_self m _ u)
    · by_cases ht0 : truthy (dget u0 "proxy_wallet")
      · rw [if_pos ht0]
        exact ih _ u h htr
      · rw [if_neg ht0]
        exact ih _ u h htr

theorem uniqueUsersAux_walletKeyed (us : List PyDict)
    (hus : ∀ u ∈ us, truthy (dget u "proxy_wallet") = true →
      dget (stripNone u) "proxy_wallet" = dget u "proxy_wallet") :
    ∀ m : List (PyVal × PyDict), walletKeyed m →
      walletKeyed (uniqueUsersAux m us) := by
  induction us with
  | nil => intro m hm; exact hm
  | cons u us ih =>
    intro m hm
    simp only [uniqueUsersAux]
    have hrest : ∀ u2 ∈ us, truthy (dget u2 "proxy_wallet") = true →
        dget (stripNone u2) "proxy_wallet" = dget u2 "proxy_wallet" :=
      fun u2 hu2 => hus u2 (List.mem_cons_of_mem _ hu2)
    by_cases ht : truthy (dget u "proxy_wallet")
    · rw [if_pos ht]
      exact ih hrest _ (dictInsert_walletKeyed m _ u hm
        (hus u (List.mem_cons_self u us) ht) ht)
    · rw [if_neg ht]
      exact ih hrest _ hm

/-- `load_trades` from `database/load_data_to_db.py`: fetch the trades in
batches (fetch loop below), extract the wallet-keyed unique users, upsert
all users, then insert all trades.  Returns (user count, trade count, issued
write events). -/
def load_trades_fetch (pages2 : Nat → Nat → List PyDict)
    (batchSize limit : Nat) : Nat → Nat → List PyDict
  | 0, _ => []
  | fuel + 1, offset =>
    if offset < limit then
      let bl := min batchSize (limit - offset)
      let batch := pages2 offset bl
      if batch.isEmpty then []
      else batch ++ load_trades_fetch pages2 batchSize limit fuel (offset + bl)
    else []

/-- See `load_trades_fetch`; `pages2 offset lim` is the upstream answer for
one `get_trades(limit=lim, offset=offset)` call. -/
def load_trades (okU okT : PyDict → Bool) (pages2 : Nat → Nat → List PyDict)
    (batchSize limit fuel : Nat) : Nat × Nat × List Ev :=
  let all_trades := load_trades_fetch pages2 batchSize limit fuel 0
  let users := all_trades.map transform_user_data
  let uniq := uniqueUsersAux [] users
  let ures := upsert_users okU (uniq.map Prod.snd)
  let tres := insert_trades okT all_trades
  (ures.1, tres.1, ures.2.map Ev.user ++ tres.2.map Ev.trade)

theorem users_then_trades_checkUB (okU okT : PyDict → Bool)
    (all_trades : List PyDict) (seen : List PyVal) :
    checkUB seen
      ((upsert_users okU
          ((uniqueUsersAux [] (all_trades.map transform_user_data)).map Prod.snd)).2.map
            Ev.user
        ++ (insert_trades okT all_trades).2.map Ev.trade) = true := by
  apply checkUB_append
  · apply checkUB_user_shaped
    intro e he
    rcases List.mem_map.mp he with ⟨w, _, rfl⟩
    exact ⟨w, rfl⟩
  · apply checkUB_trade_shaped
    intro e he
    rcases List.mem_map.mp he with ⟨r, hr, rfl⟩
    refine ⟨r, rfl, ?_⟩
    have hmand := insert_trades_attempted_mandOk okT all_trades r hr
    obtain ⟨t, ht, r0, htr0, rfl⟩ := insert_trades_attempted_src okT all_trades r hr
    obtain ⟨heq, htruthy⟩ := trade_wallet_link t r0 htr0 hmand
    rw [heq]
    have huser_mem : transform_user_data t ∈ all_trades.map transform_user_data :=
      List.mem_map.mpr ⟨t, ht, rfl⟩
    have hukey : dget (transform_user_data t) "proxy_wallet" = dget t "proxyWallet" := rfl
    obtain ⟨p, hp, hpk⟩ := uniqueUsersAux_key_mem
      (all_trades.map transform_user_data) [] (transform_user_data t) huser_mem
      (by rw [hukey]; exact htruthy)
    have hwk : walletKeyed (uniqueUsersAux [] (all_trades.map transform_user_data)) := by
      apply uniqueUsersAux_walletKeyed
      · intro u hu htru
        rcases List.mem_map.mp hu with ⟨t2, _, rfl⟩
        exact user_wallet_strip t2 htru
      · intro p2 hp2
        simp at hp2
    obtain ⟨hpstrip, hptruthy⟩ := hwk p hp
    apply seenAfter_mem_user
    apply List.mem_map.mpr
    refine ⟨dget t "proxyWallet", ?_, rfl⟩
    have hmem2 := upsert_users_wallet_mem okU _ p.2
      (List.mem_map.mpr ⟨p, hp, rfl⟩)
      (by rw [hpstrip]; exact hptruthy)
    have hchain : dget (stripNone p.2) "proxy_wallet" = dget t "proxyWallet" := by
      rw [hpstrip, hpk, hukey]
    rwa [hchain] at hmem2

/-- The records carried by one storage request. -/
def reqRecords : Req α → List α
  | .bulk rs => rs
  | .single r => [r]

/-- User-upsert issuance events of a request trace: one event per record per
request, in request order. -/
def reqUserEvents (reqs : List (Req PyDict)) : List Ev :=
  (reqs.map (fun q => (reqRecords q).map (fun r => Ev.user (dget r "proxy_wallet")))).flatten

/-- Trade-insert issuance events of a request trace. -/
def reqTradeEvents (reqs : List (Req PyDict)) : List Ev :=
  (reqs.map (fun q => (reqRecords q).map Ev.trade)).flatten

theorem upsertChunk_records_sub (be : Backend α) (c : List α) (q : Req α)
    (hq : q ∈ (upsertChunk be c).2) : ∀ r ∈ reqRecords q, r ∈ c := by
  intro r hr
  unfold upsertChunk at hq
  by_cases hok : be.okBulk c
  · rw [if_pos hok] at hq
    rcases List.mem_singleton.mp hq with rfl
    exact hr
  · rw [if_neg hok] at hq
    simp only [oneByOne_snd] at hq
    rcases List.mem_cons.mp hq with rfl | h
    · exact hr
    · rcases List.mem_map.mp h with ⟨r2, hr2, rfl⟩
      rcases List.mem_singleton.mp hr with rfl
      exact hr2

theorem insertChunk_records_sub (be : Backend α) (c : List α) (q : Req α)
    (hq : q ∈ (insertChunk be c).2) : ∀ r ∈ reqRecords q, r ∈ c := by
  intro r hr
  unfold insertChunk at hq
  by_cases hok : be.okBulk c
  · rw [if_pos hok] at hq
    rcases List.mem_singleton.mp hq with rfl
    exact hr
  · rw [if_neg hok] at hq
    by_cases hbig : 100 < c.length
    · rw [if_pos hbig] at hq
      have hq2 : q = Req.bulk c ∨ q ∈ (((chunksOf 100 c).map (fun sc =>
          if be.okBulk sc then (sc.length, [Req.bulk sc])
          else ((oneByOne be sc).1,
            Req.bulk sc :: (oneByOne be sc).2))).map Prod.snd).flatten := by
        simpa using List.mem_cons.mp hq
      rcases hq2 with rfl | h
      · exact hr
      · rcases List.mem_flatten.mp h with ⟨l, hl, hql⟩
        rcases List.mem_map.mp hl with ⟨pr, hpr, rfl⟩
        rcases List.mem_map.mp hpr with ⟨sc, hsc, rfl⟩
        have hrin : r ∈ sc := by
          by_cases hoksc : be.okBulk sc
          · rw [if_pos hoksc] at hql
            simp only [List.mem_singleton] at hql
            subst hql
            exact hr
          · rw [if_neg hoksc] at hql
            simp only [oneByOne_snd] at hql
            rcases List.mem_cons.mp hql with rfl | h2
            · exact hr
            · rcases List.mem_map.mp h2 with ⟨r2, hr2, rfl⟩
              rcases List.mem_singleton.mp hr with rfl
              exact hr2
        exact mem_of_mem_chunksOf (by omega) hsc hrin
    · rw [if_neg hbig] at hq
      simp only [oneByOne_snd] at hq
      rcases List.mem_cons.mp hq with rfl | h
      · exact hr
      · rcases List.mem_map.mp h with ⟨r2, hr2, rfl⟩
        rcases List.mem_singleton.mp hr with rfl
        exact hr2

theorem bulkUpsertTrace_records_sub (be : Backend α) (cs : Nat) (hcs : 1 ≤ cs)
    (rs : List α) (q : Req α) (hq : q ∈ (bulkUpsertTrace be cs rs).2) :
    ∀ r ∈ reqRecords q, r ∈ rs := by
  intro r hr
  unfold bulkUpsertTrace at hq
  by_cases hne : rs.isEmpty
  · rw [if_pos hne] at hq
    simp at hq
  · rw [if_neg hne] at hq
    simp only [List.map_map] at hq
    rcases List.mem_flatten.mp hq with ⟨l, hl, hql⟩
    rcases List.mem_map.mp hl with ⟨c, hc, rfl⟩
    exact mem_of_mem_chunksOf hcs hc
      (upsertChunk_records_sub be c q hql r hr)

theorem bulkInsertTrace_records_sub (be : Backend α) (cs : Nat) (hcs : 1 ≤ cs)
    (rs : List α) (q : Req α) (hq : q ∈ (bulkInsertTrace be cs rs).2) :
    ∀ r ∈ reqRecords q, r ∈ rs := by
  intro r hr
  unfold bulkInsertTrace at hq
  by_cases hne : rs.isEmpty
  · rw [if_pos hne] at hq
    simp at hq
  · rw [if_neg hne] at hq
    simp only [List.map_map] at hq
    rcases List.mem_flatten.mp hq with ⟨l, hl, hql⟩
    rcases List.mem_map.mp hl with ⟨c, hc, rfl⟩
    exact mem_of_mem_chunksOf hcs hc
      (insertChunk_records_sub be c q hql r hr)

theorem bulkUpsertTrace_record_mem (be : Backend α) (cs : Nat) (hcs : 1 ≤ cs)
    (rs : List α) (r : α) (hr : r ∈ rs) :
    ∃ q ∈ (bulkUpsertTrace be cs rs).2, r ∈ reqRecords q := by
  have hne : rs.isEmpty = false := by
    rw [Bool.eq_false_iff]
    intro h
    rw [List.isEmpty_iff.mp h] at hr
    simp at hr
  have hrs : r ∈ (chunksOf cs rs).flatten := by
    rw [chunksOf_flatten cs hcs]
    exact hr
  rcases List.mem_flatten.mp hrs with ⟨c, hc, hrc⟩
  have hbulk : Req.bulk c ∈ (upsertChunk be c).2 := by
    unfold upsertChunk
    by_cases hok : be.okBulk c
    · rw [if_pos hok]
      exact List.mem_singleton.mpr rfl
    · rw [if_neg hok]
      exact List.mem_cons_self _ _
  refine ⟨Req.bulk c, ?_, hrc⟩
  unfold bulkUpsertTrace
  rw [if_neg (by simp [hne])]
  simp only [List.map_map]
  exact List.mem_flatten.mpr
    ⟨(upsertChunk be c).2, List.mem_map.mpr ⟨c, hc, rfl⟩, hbulk⟩

theorem reqUserEvents_mem (reqs : List (Req PyDict)) (r : PyDict)
    (h : ∃ q ∈ reqs, r ∈ reqRecords q) :
    Ev.user (dget r "proxy_wallet") ∈ reqUserEvents reqs := by
  obtain ⟨q, hq, hr⟩ := h
  unfold reqUserEvents
  exact List.mem_flatten.mpr
    ⟨(reqRecords q).map (fun r => Ev.user (dget r "proxy_wallet")),
      List.mem_map.mpr ⟨q, hq, rfl⟩, List.mem_map.mpr ⟨r, hr, rfl⟩⟩

theorem reqUserEvents_shape (reqs : List (Req PyDict)) :
    ∀ e ∈ reqUserEvents reqs, ∃ w, e = Ev.user w := by
  intro e he
  unfold reqUserEvents at he
  rcases List.mem_flatten.mp he with ⟨l, hl, hel⟩
  rcases List.mem_map.mp hl with ⟨q, _, rfl⟩
  rcases List.mem_map.mp hel with ⟨r, _, rfl⟩
  exact ⟨dget r "proxy_wallet", rfl⟩

theorem reqTradeEvents_shape (reqs : List (Req PyDict)) :
    ∀ e ∈ reqTradeEvents reqs,
      ∃ q ∈ reqs, ∃ r, r ∈ reqRecords q ∧ e = Ev.trade r := by
  intro e he
  unfold reqTradeEvents at he
  rcases List.mem_flatten.mp he with ⟨l, hl, hel⟩
  rcases List.mem_map.mp hl with ⟨q, hq, rfl⟩
  rcases List.mem_map.mp hel with ⟨r, hr, rfl⟩
  exact ⟨q, hq, r, hr, rfl⟩

theorem insert_trades_batch_valid_src (ts : List PyDict) :
    ∀ vs, insert_trades_batch_valid ts = some vs →
      ∀ r ∈ vs, ∃ t ∈ ts, ∃ r0,
        transform_trade_data t = some r0 ∧ r = stripNone r0 := by
  induction ts with
  | nil =>
    intro vs hvs r hr
    simp only [insert_trades_batch_valid, Option.some.injEq] at hvs
    rw [← hvs] at hr
    simp at hr
  | cons t ts ih =>
    intro vs hvs r hr
    simp only [insert_trades_batch_valid] at hvs
    cases htr : transform_trade_data t with
    | none => simp [htr] at hvs
    | some r0 =>
      simp only [htr] at hvs
      cases hrec : insert_trades_batch_valid ts with
      | none => simp [hrec] at hvs
      | some vs0 =>
        simp only [hrec, Option.some.injEq] at hvs
        rw [← hvs] at hr
        by_cases hm : mandOk (stripNone r0)
        · rw [if_pos hm] at hr
          rcases List.mem_cons.mp hr with h | h
          · exact ⟨t, List.mem_cons_self t ts, r0, htr, h⟩
          · obtain ⟨t2, ht2, r1, h1, h2⟩ := ih vs0 hrec r h
            exact ⟨t2, List.mem_cons_of_mem _ ht2, r1, h1, h2⟩
        · rw [if_neg hm] at hr
          obtain ⟨t2, ht2, r1, h1, h2⟩ := ih vs0 hrec r hr
          exact ⟨t2, List.mem_cons_of_mem _ ht2, r1, h1, h2⟩

/-- `insert_trades_batch` from `database/init_data_async.py`: bulk-upsert the
wallet-keyed unique users of the batch first (chunk size 500), then
transform and filter the trades and bulk-insert the valid ones (chunk size
500).  The transform loop has no per-record `try`, so a raising transform
aborts the batch after the user upserts (trade count `Option.none`).
Returns (user count, trade count, issued write events). -/
def insert_trades_batch (beU beT : Backend PyDict) (trades : List PyDict) :
    Nat × Option Nat × List Ev :=
  if trades.isEmpty then (0, some 0, [])
  else
    let users := trades.map transform_user_data
    let user_records := (uniqueUsersAux [] users).map (fun p => stripNone p.2)
    let ures := bulkUpsertTrace beU 500 user_records
    match insert_trades_batch_valid trades with
    | Option.none => (ures.1, Option.none, reqUserEvents ures.2)
    | some vs =>
      let tres := bulkInsertTrace beT 500 vs
      (ures.1, some tres.1, reqUserEvents ures.2 ++ reqTradeEvents tres.2)

theorem batch_events_checkUB (beU beT : Backend PyDict) (trades : List PyDict)
    (seen : List PyVal) :
    checkUB seen (insert_trades_batch beU beT trades).2.2 = true := by
  unfold insert_trades_batch
  by_cases hne : trades.isEmpty
  · rw [if_pos hne]; rfl
  · rw [if_neg hne]
    cases hv : insert_trades_batch_valid trades with
    | none =>
      simp only [hv]
      exact checkUB_user_shaped _ (reqUserEvents_shape _) seen
    | some vs =>
      simp only [hv]
      apply checkUB_append
      · exact checkUB_user_shaped _ (reqUserEvents_shape _) seen
      · apply checkUB_trade_shaped
        intro e he
        obtain ⟨q, hq, r, hrq, rfl⟩ := reqTradeEvents_shape _ e he
        refine ⟨r, rfl, ?_⟩
        have hrvs : r ∈ vs :=
          bulkInsertTrace_records_sub beT 500 (by omega) vs q hq r hrq
        have hmand : mandOk r = true := by
          apply insert_trades_batch_valid_mandOk trades r
          rw [hv]
          exact hrvs
        obtain ⟨t, ht, r0, htr0, rfl⟩ :=
          insert_trades_batch_valid_src trades vs hv r hrvs
        obtain ⟨heq, htruthy⟩ := trade_wallet_link t r0 htr0 hmand
        rw [heq]
        have huser_mem : transform_user_data t ∈ trades.map transform_user_data :=
          List.mem_map.mpr ⟨t, ht, rfl⟩
        have hukey : dget (transform_user_data t) "proxy_wallet"
            = dget t "proxyWallet" := rfl
        obtain ⟨p, hp, hpk⟩ := uniqueUsersAux_key_mem
          (trades.map transform_user_data) [] (transform_user_data t) huser_mem
          (by rw [hukey]; exact htruthy)
        have hwk : walletKeyed (uniqueUsersAux [] (trades.map transform_user_data)) := by
          apply uniqueUsersAux_walletKeyed
          · intro u hu htru
            rcases List.mem_map.mp hu with ⟨t2, _, rfl⟩
            exact user_wallet_strip t2 htru
          · intro p2 hp2
            simp at hp2
        obtain ⟨hpstrip, hptruthy⟩ := hwk p hp
        have hrrec : stripNone p.2 ∈
            (uniqueUsersAux [] (trades.map transform_user_data)).map
              (fun p => stripNone p.2) :=
          List.mem_map.mpr ⟨p, hp, rfl⟩
        have hqq := bulkUpsertTrace_record_mem beU 500 (by omega) _
          (stripNone p.2) hrrec
        have hev := reqUserEvents_mem _ (stripNone p.2) hqq
        apply seenAfter_mem_user
        have hchain : dget (stripNone p.2) "proxy_wallet" = dget t "proxyWallet" := by
          rw [hpstrip, hpk, hukey]
        rw [← hchain]
        exact hev

/-- C9: in every ingestion path that writes trades — the synchronous
per-market pagination loop, the bulk `load_trades` path, and the async
`insert_trades_batch` path — every issued trade insert names a wallet for
which a user upsert request was issued strictly earlier in the same run:
users extracted from a fetched trade batch are always upserted before that
batch's trades are inserted. -/
theorem user_before_trade_ordering :
    (∀ (okU okT : PyDict → Bool) (pages : Nat → List PyDict)
      (b fuel offset : Nat) (seen : List PyVal),
      checkUB seen
        (init_load_all_trades_by_market okU okT pages b fuel offset).events = true)
    ∧ (∀ (okU okT : PyDict → Bool) (pages2 : Nat → Nat → List PyDict)
      (batchSize limit fuel : Nat) (seen : List PyVal),
      checkUB seen (load_trades okU okT pages2 batchSize limit fuel).2.2 = true)
    ∧ (∀ (beU beT : Backend PyDict) (trades : List PyDict) (seen : List PyVal),
      checkUB seen (insert_trades_batch beU beT trades).2.2 = true) :=
  ⟨fun okU okT pages b fuel offset seen =>
      sync_events_ordered okU okT pages b fuel offset seen,
    fun okU okT pages2 bs limit fuel seen =>
      users_then_trades_checkUB okU okT (load_trades_fetch pages2 bs limit fuel 0) seen,
    fun beU beT trades seen => batch_events_checkUB beU beT trades seen⟩
